import Mathlib

/-!
Verification of the `loja-rs` in-memory key-value store (RESP protocol).

This file shallowly embeds the Rust sources:

* `src/frame.rs`   - the RESP frame codec (`Frame::check`, `Frame::parse`,
  the byte-cursor primitives `get_u8`, `peek_u8`, `skip`, `get_line`,
  `get_decimal_signed`, `get_decimal_unsigned`).
* `src/connection.rs` - `Connection::parse_frame`, `Connection::read_frame`,
  `Connection::write_value`.
* `src/db.rs`      - the store (`Db::get`, `Db::set`,
  `DbSharedState::purge_expired_keys`, `DbState::next_expiration`,
  `Db::shutdown_purge_task`).
* `src/parse.rs`   - the array-frame cursor (`Parse::next_string`,
  `next_bytes`, `next_int`, `finish`).
* `src/cmd/*.rs`   - command parsing (`CommandVariant::from_frame`,
  `SetCmd::parse_frames`, `GetCmd`, `PingCmd`, `PublishCmd`).
* `src/clients/client.rs` - reply interpretation of `Client::get`.

Modelling conventions:

* Bytes are `Nat` (values < 256 on real inputs); byte strings are `List Nat`.
* A Rust `Cursor<&[u8]>` is the pair of the full byte list `s` and a
  position `pos`; primitives return the new position.
* `tokio::time::Instant` and `std::time::Duration` are modelled as `Nat`
  (a discrete time-stamp / duration in unspecified fixed units).
* The `atoi` crate's `atoi` is modelled as a strict ASCII-decimal parser:
  an optional `+`/`-` sign followed by one or more digits and nothing else,
  with the checked i64/u64 range bounds of the instantiating type.
* Recursive byte-level parsers use an explicit fuel counter decremented on
  every recursive call; `none` means fuel exhaustion, which never occurs at
  the fuel `2 * s.length + 4` used by the top-level wrappers (every
  frame-level call first consumes at least one byte).
-/

set_option autoImplicit false

namespace Loja

/-- The error taxonomy of `src/error.rs`.  `Response` is the client-side
variant referenced by `src/clients/client.rs` (`Error::Response`); it is
absent from `src/error.rs` itself, which is one of the internal
inconsistencies of the sources.  `UnknownCommand` and `Response` carry
UTF-8 bytes. -/
inductive ErrorL where
  | Io (msg : String)
  | IncompleteFrame
  | Protocol (msg : String)
  | Conversion
  | Utf8
  | EndOfStream
  | UnknownCommand (name : List Nat)
  | WrongFrameType (msg : String)
  | Response (msg : List Nat)
deriving DecidableEq, Repr

/-- ASCII bytes of a (pure-ASCII) string literal. -/
def strB (s : String) : List Nat := s.data.map Char.toNat

/-- `fn get_u8`: consume one byte; `IncompleteFrame` when the cursor is at
the end of the buffer. -/
def getU8 (s : List Nat) (pos : Nat) : Except ErrorL (Nat × Nat) :=
  if h : pos < s.length then .ok (s.get ⟨pos, h⟩, pos + 1) else .error .IncompleteFrame

/-- `fn peek_u8`: read one byte without consuming it. -/
def peekU8 (s : List Nat) (pos : Nat) : Except ErrorL Nat :=
  if h : pos < s.length then .ok (s.get ⟨pos, h⟩) else .error .IncompleteFrame

/-- `fn skip`: advance the cursor by `n` bytes; `IncompleteFrame` when fewer
than `n` bytes remain. -/
def skipN (s : List Nat) (pos n : Nat) : Except ErrorL Nat :=
  if s.length - pos < n then .error .IncompleteFrame else .ok (pos + n)

/-- The scan loop of `fn get_line` (`for i in start..end`), searching for the
first CRLF at index `i` with `start ≤ i < stop`.  The counter `cnt` is
`stop - i`, making the recursion structural. -/
def findCRLF (s : List Nat) : Nat → Nat → Option Nat
  | 0, _ => none
  | cnt + 1, i =>
    if s.getD i 0 = 13 ∧ s.getD (i + 1) 0 = 10 then some i else findCRLF s cnt (i + 1)

/-- `fn get_line`: return the bytes from the cursor up to the next CRLF and
advance past it.  Mirrors the source exactly: the scan runs over
`start..(s.length - 1)`, and a missing CRLF is `IncompleteFrame`. -/
def getLine (s : List Nat) (pos : Nat) : Except ErrorL (List Nat × Nat) :=
  match findCRLF s (s.length - 1 - pos) pos with
  | some i => .ok ((s.drop pos).take (i - pos), i + 2)
  | none => .error .IncompleteFrame

/-- Is `b` an ASCII decimal digit? -/
def isDigitB (b : Nat) : Bool := 48 ≤ b ∧ b ≤ 57

/-- Decimal value of a digit run (tail-recursive accumulator); `none` if any
byte is not a digit. -/
def digitsAux : List Nat → Nat → Option Nat
  | [], acc => some acc
  | b :: rest, acc => if isDigitB b then digitsAux rest (acc * 10 + (b - 48)) else none

/-- Strict all-digits decimal value; `none` when empty or any byte is not a
digit. -/
def digitsVal (bs : List Nat) : Option Nat :=
  if bs.isEmpty then none else digitsAux bs 0

/-- The sign-handling core of the `atoi` crate: optional leading `+`/`-`
followed by a strict digit run (the empty list has no digit run). -/
def atoiCore (bs : List Nat) : Option Int :=
  match bs with
  | [] => none
  | b :: rest =>
    if b = 43 then (digitsVal rest).map Int.ofNat
    else if b = 45 then (digitsVal rest).map (fun v => -(v : Int))
    else (digitsVal (b :: rest)).map Int.ofNat

/-- `atoi::<i64>`: the core with the checked i64 range. -/
def atoiI64 (bs : List Nat) : Option Int :=
  (atoiCore bs).bind fun v =>
    if -(2 ^ 63) ≤ v ∧ v < 2 ^ 63 then some v else none

/-- `atoi::<u64>`: the core with the checked u64 range (a `-` sign is only
accepted on zero). -/
def atoiU64 (bs : List Nat) : Option Nat :=
  (atoiCore bs).bind fun v =>
    if 0 ≤ v ∧ v < 2 ^ 64 then some v.toNat else none

/-- `fn get_decimal_signed`: read a line and parse it with `atoi::<i64>`. -/
def getDecimalSigned (s : List Nat) (pos : Nat) : Except ErrorL (Int × Nat) :=
  match getLine s pos with
  | .error e => .error e
  | .ok (line, pos₁) =>
    match atoiI64 line with
    | some v => .ok (v, pos₁)
    | none => .error (.Protocol "invalid frame format")

/-- `fn get_decimal_unsigned`: read a line and parse it with `atoi::<u64>`. -/
def getDecimalUnsigned (s : List Nat) (pos : Nat) : Except ErrorL (Nat × Nat) :=
  match getLine s pos with
  | .error e => .error e
  | .ok (line, pos₁) =>
    match atoiU64 line with
    | some v => .ok (v, pos₁)
    | none => .error (.Protocol "invalid frame format")

/-- `enum Frame` of `src/frame.rs`.  `SimpleString`/`SimpleError` payloads are
kept as their UTF-8 bytes (the Rust `String` content). -/
inductive FrameL where
  | simpleString (s : List Nat)
  | simpleError (s : List Nat)
  | integer (n : Int)
  | bulkString (b : List Nat)
  | array (fs : List FrameL)
  | nullBulkString
  | nullArray
  | null

/-- UTF-8 validity of a byte list: models the success condition of Rust's
`String::from_utf8`. -/
def utf8Valid : List Nat → Bool
  | [] => true
  | b :: rest =>
    if b ≤ 0x7F then utf8Valid rest
    else if 0xC2 ≤ b ∧ b ≤ 0xDF then
      match rest with
      | c₁ :: r => (0x80 ≤ c₁ ∧ c₁ ≤ 0xBF) ∧ utf8Valid r
      | [] => false
    else if 0xE0 ≤ b ∧ b ≤ 0xEF then
      match rest with
      | c₁ :: c₂ :: r =>
        (if b = 0xE0 then 0xA0 ≤ c₁ ∧ c₁ ≤ 0xBF
         else if b = 0xED then 0x80 ≤ c₁ ∧ c₁ ≤ 0x9F
         else 0x80 ≤ c₁ ∧ c₁ ≤ 0xBF) ∧
        (0x80 ≤ c₂ ∧ c₂ ≤ 0xBF) ∧ utf8Valid r
      | _ => false
    else if 0xF0 ≤ b ∧ b ≤ 0xF4 then
      match rest with
      | c₁ :: c₂ :: c₃ :: r =>
        (if b = 0xF0 then 0x90 ≤ c₁ ∧ c₁ ≤ 0xBF
         else if b = 0xF4 then 0x80 ≤ c₁ ∧ c₁ ≤ 0x8F
         else 0x80 ≤ c₁ ∧ c₁ ≤ 0xBF) ∧
        (0x80 ≤ c₂ ∧ c₂ ≤ 0xBF) ∧ (0x80 ≤ c₃ ∧ c₃ ≤ 0xBF) ∧ utf8Valid r
      | _ => false
    else false

mutual

/-- `Frame::check` (`src/frame.rs:23-63`) over an explicit fuel, decremented
on every (mutually) recursive call so the recursion is structural.  Returns
the cursor position after the checked frame.  The `*` loop
`for _ in 0..len` iterates `max len 0` times, hence `Int.toNat`. -/
def checkL (s : List Nat) : Nat → Nat → Option (Except ErrorL Nat)
  | 0, _ => none
  | fuel + 1, pos =>
    match getU8 s pos with
    | .error e => some (.error e)
    | .ok (b, pos₁) =>
      if b = 43 ∨ b = 45 then
        -- b'+' | b'-' => get_line
        match getLine s pos₁ with
        | .error e => some (.error e)
        | .ok (_, pos₂) => some (.ok pos₂)
      else if b = 58 then
        -- b':' => get_decimal_signed
        match getDecimalSigned s pos₁ with
        | .error e => some (.error e)
        | .ok (_, pos₂) => some (.ok pos₂)
      else if b = 36 then
        -- b'$'
        match peekU8 s pos₁ with
        | .error e => some (.error e)
        | .ok b₂ =>
          if b₂ = 45 then
            -- skip '-1\r\n'
            match skipN s pos₁ 4 with
            | .error e => some (.error e)
            | .ok pos₂ => some (.ok pos₂)
          else
            match getDecimalSigned s pos₁ with
            | .error e => some (.error e)
            | .ok (v, pos₂) =>
              -- `let len: usize = ...try_into()?` fails on negatives
              if v < 0 then some (.error .Conversion)
              else
                match skipN s pos₂ (v.toNat + 2) with
                | .error e => some (.error e)
                | .ok pos₃ => some (.ok pos₃)
      else if b = 42 then
        -- b'*'
        match getDecimalSigned s pos₁ with
        | .error e => some (.error e)
        | .ok (v, pos₂) => checkManyL s fuel v.toNat pos₂
      else if b = 95 then
        -- b'_'
        match getLine s pos₁ with
        | .error e => some (.error e)
        | .ok (line, pos₂) =>
          if line = [] then some (.ok pos₂)
          else some (.error (.Protocol "invalid `null` data type frame format"))
      else some (.error (.Protocol "invalid frame byte"))
termination_by structural fuel _ => fuel

/-- The `for _ in 0..len { Frame::check(src)?; }` loop of `Frame::check`. -/
def checkManyL (s : List Nat) : Nat → Nat → Nat → Option (Except ErrorL Nat)
  | 0, _, _ => none
  | _ + 1, 0, pos => some (.ok pos)
  | fuel + 1, cnt + 1, pos =>
    match checkL s fuel pos with
    | none => none
    | some (.error e) => some (.error e)
    | some (.ok pos₁) => checkManyL s fuel cnt pos₁
termination_by structural fuel _ _ => fuel

end

mutual

/-- `Frame::parse` (`src/frame.rs:65-128`) over an explicit fuel (decremented
on every recursive call, as in `checkL`).  Returns the parsed frame and the
cursor position after it. -/
def parseL (s : List Nat) : Nat → Nat → Option (Except ErrorL (FrameL × Nat))
  | 0, _ => none
  | fuel + 1, pos =>
    match getU8 s pos with
    | .error e => some (.error e)
    | .ok (b, pos₁) =>
      if b = 43 then
        -- b'+' => SimpleString via String::from_utf8
        match getLine s pos₁ with
        | .error e => some (.error e)
        | .ok (line, pos₂) =>
          if utf8Valid line then some (.ok (.simpleString line, pos₂))
          else some (.error .Utf8)
      else if b = 45 then
        -- b'-' => SimpleError via String::from_utf8
        match getLine s pos₁ with
        | .error e => some (.error e)
        | .ok (line, pos₂) =>
          if utf8Valid line then some (.ok (.simpleError line, pos₂))
          else some (.error .Utf8)
      else if b = 58 then
        -- b':' => Integer
        match getDecimalSigned s pos₁ with
        | .error e => some (.error e)
        | .ok (v, pos₂) => some (.ok (.integer v, pos₂))
      else if b = 36 then
        -- b'$'
        match peekU8 s pos₁ with
        | .error e => some (.error e)
        | .ok b₂ =>
          if b₂ = 45 then
            match getLine s pos₁ with
            | .error e => some (.error e)
            | .ok (line, pos₂) =>
              if line = [45, 49] then some (.ok (.nullBulkString, pos₂))
              else some (.error (.Protocol "invalid frame format, only valid negative length is -1"))
          else
            match getDecimalUnsigned s pos₁ with
            | .error e => some (.error e)
            | .ok (len, pos₂) =>
              let n := len + 2
              if s.length - pos₂ < n then some (.error .IncompleteFrame)
              else
                let data := (s.drop pos₂).take len
                match skipN s pos₂ n with
                | .error e => some (.error e)
                | .ok pos₃ => some (.ok (.bulkString data, pos₃))
      else if b = 42 then
        -- b'*'
        match getDecimalSigned s pos₁ with
        | .error e => some (.error e)
        | .ok (v, pos₂) =>
          if v = -1 then some (.ok (.nullArray, pos₂))
          else if v < 0 then some (.error .Conversion)
          else
            match parseManyL s fuel v.toNat pos₂ with
            | none => none
            | some (.error e) => some (.error e)
            | some (.ok (fs, pos₃)) => some (.ok (.array fs, pos₃))
      else if b = 95 then
        -- b'_'
        match getLine s pos₁ with
        | .error e => some (.error e)
        | .ok (line, pos₂) =>
          if line = [] then some (.ok (.null, pos₂))
          else some (.error (.Protocol "invalid `null` data type frame format"))
      else some (.error (.Protocol "first byte was not a valid RESP data type"))
termination_by structural fuel _ => fuel

/-- The `for _ in 0..len { out.push(Frame::parse(src)?); }` loop of
`Frame::parse`. -/
def parseManyL (s : List Nat) : Nat → Nat → Nat → Option (Except ErrorL (List FrameL × Nat))
  | 0, _, _ => none
  | _ + 1, 0, pos => some (.ok ([], pos))
  | fuel + 1, cnt + 1, pos =>
    match parseL s fuel pos with
    | none => none
    | some (.error e) => some (.error e)
    | some (.ok (f, pos₁)) =>
      match parseManyL s fuel cnt pos₁ with
      | none => none
      | some (.error e) => some (.error e)
      | some (.ok (fs, pos₂)) => some (.ok (f :: fs, pos₂))
termination_by structural fuel _ _ => fuel

end

namespace FrameL

/-- `Frame::check` on a fresh cursor, at the always-sufficient fuel
`2 * s.length + 4`: along any call chain, `checkL` steps strictly advance
the position (each begins with `get_u8`) and `checkManyL` steps alternate
with them, so the chain depth never reaches the fuel. -/
def check (s : List Nat) : Except ErrorL Nat :=
  (checkL s (2 * s.length + 4) 0).getD (.error .IncompleteFrame)

/-- `Frame::parse` on a fresh cursor, at fuel `2 * s.length + 4`. -/
def parse (s : List Nat) : Except ErrorL (FrameL × Nat) :=
  (parseL s (2 * s.length + 4) 0).getD (.error .IncompleteFrame)

end FrameL

/-! ## Connection (`src/connection.rs`) -/

/-- ASCII decimal digits of `n` (the bytes `write!(buf, "{}", val)`
produces). -/
def natDigits (n : Nat) : List Nat :=
  if h : n < 10 then [48 + n]
  else natDigits (n / 10) ++ [48 + n % 10]
decreasing_by exact Nat.div_lt_self (by omega) (by omega)

/-- `fn write_decimal`: the decimal representation followed by CRLF. -/
def writeDecimal (n : Nat) : List Nat := natDigits n ++ [13, 10]

mutual

/-- `Connection::write_value` (`src/connection.rs:134-172`).

The source `match` has arms only for `SimpleString`, `SimpleError`,
`Integer`, `BulkString`, `Null` and `Array`; it has **no arm** for
`NullBulkString` or `NullArray` (the match is not exhaustive over
`enum Frame`), so those two variants have no encoding: modelled as `none`.
The `Integer` arm passes the `i64` value to `write_decimal`, whose
parameter type is `u64`; this does not type-check in the source, and a
negative integer has no encoding under it: also modelled as `none`
(non-negative values encode as the source intends). -/
def writeValue : FrameL → Option (List Nat)
  | .simpleString v => some (43 :: v ++ [13, 10])
  | .simpleError v => some (45 :: v ++ [13, 10])
  | .integer v => if v < 0 then none else some (58 :: writeDecimal v.toNat)
  | .bulkString v => some (36 :: writeDecimal v.length ++ v ++ [13, 10])
  | .null => some [36, 45, 49, 13, 10]
  | .array fs =>
    match writeValues fs with
    | none => none
    | some body => some (42 :: writeDecimal fs.length ++ body)
  | .nullBulkString => none
  | .nullArray => none

/-- The `for frame in frames { self.write_value(frame).await?; }` loop of the
`Array` arm. -/
def writeValues : List FrameL → Option (List Nat)
  | [] => some []
  | f :: rest =>
    match writeValue f, writeValues rest with
    | some a, some b => some (a ++ b)
    | _, _ => none

end

/-- `Connection::parse_frame` (`src/connection.rs:96-116`): `check`, then on
success re-`parse` from position 0 and report the byte length to discard
(= the position `check` reached).  `Ok none` stands for "not enough data
buffered" (`Error::IncompleteFrame` from `check`). -/
def parseFrameC (buf : List Nat) : Except ErrorL (Option (FrameL × Nat)) :=
  match FrameL.check buf with
  | .ok len =>
    match FrameL.parse buf with
    | .ok (f, _) => .ok (some (f, len))
    | .error e => .error e
  | .error .IncompleteFrame => .ok none
  | .error e => .error e

/-- The outcome of `Connection::read_frame`: the returned value, the bytes
remaining in the read buffer, and the chunks not yet read from the
transport. -/
structure ReadOutcome where
  res : Except ErrorL (Option FrameL)
  buf : List Nat
  rest : List (List Nat)

/-- `Connection::read_frame` (`src/connection.rs:57-88`).  The transport is
modelled as the list of byte chunks successive `read_buf` calls deliver; an
exhausted list (or an empty chunk) is a zero-byte read, i.e. end of stream.
On end of stream the loop returns `None` when the buffer is empty and a
`ConnectionReset` I/O error otherwise; on a successful parse the consumed
prefix is discarded from the buffer and the frame returned. -/
def readFrame (buf : List Nat) : List (List Nat) → ReadOutcome
  | [] =>
    match parseFrameC buf with
    | .error e => ⟨.error e, buf, []⟩
    | .ok (some (f, len)) => ⟨.ok (some f), buf.drop len, []⟩
    | .ok none =>
      if buf.isEmpty then ⟨.ok none, buf, []⟩
      else ⟨.error (.Io "connection was closed mid frame"), buf, []⟩
  | c :: chunks =>
    match parseFrameC buf with
    | .error e => ⟨.error e, buf, c :: chunks⟩
    | .ok (some (f, len)) => ⟨.ok (some f), buf.drop len, c :: chunks⟩
    | .ok none =>
      if c.isEmpty then
        if buf.isEmpty then ⟨.ok none, buf, chunks⟩
        else ⟨.error (.Io "connection was closed mid frame"), buf, chunks⟩
      else readFrame (buf ++ c) chunks

/-! ## Store (`src/db.rs`)

`HashMap<String, Entry>` is modelled as an association list with unique
keys; `BTreeSet<(Instant, String)>` as a list kept strictly sorted in the
lexicographic `(Instant, String)` order (`pairLt`), which is exactly the
`Ord` the `BTreeSet` iterates in, so `iter().next()` is the head. -/

/-- `struct Entry`: stored data plus optional expiration instant. -/
structure EntryL where
  data : List Nat
  expiresAt : Option Nat
deriving DecidableEq, Repr

/-- `struct DbState`: the three coupled collections. -/
structure DbStateL where
  entries : List (String × EntryL)
  expirations : List (Nat × String)
  shutdown : Bool
deriving DecidableEq, Repr

/-- The lexicographic order on `(Instant, String)` pairs used by
`BTreeSet<(Instant, String)>`. -/
def pairLt (a b : Nat × String) : Prop :=
  a.1 < b.1 ∨ (a.1 = b.1 ∧ a.2 < b.2)

instance : DecidableRel pairLt := fun a b => by
  unfold pairLt; infer_instance

/-- `HashMap::get`. -/
def entriesLookup (k : String) : List (String × EntryL) → Option EntryL
  | [] => none
  | (k₁, e₁) :: rest => if k₁ = k then some e₁ else entriesLookup k rest

/-- `HashMap::insert`: returns the previous value (if any) and the updated
map. -/
def entriesInsert (k : String) (e : EntryL) :
    List (String × EntryL) → Option EntryL × List (String × EntryL)
  | [] => (none, [(k, e)])
  | (k₁, e₁) :: rest =>
    if k₁ = k then (some e₁, (k, e) :: rest)
    else
      let r := entriesInsert k e rest
      (r.1, (k₁, e₁) :: r.2)

/-- `HashMap::remove` (value discarded). -/
def entriesRemove (k : String) : List (String × EntryL) → List (String × EntryL)
  | [] => []
  | (k₁, e₁) :: rest =>
    if k₁ = k then rest else (k₁, e₁) :: entriesRemove k rest

/-- `BTreeSet::insert` on the sorted-list representation (no-op when the
pair is already present). -/
def expInsert (p : Nat × String) : List (Nat × String) → List (Nat × String)
  | [] => [p]
  | q :: rest =>
    if p = q then q :: rest
    else if pairLt p q then p :: q :: rest
    else q :: expInsert p rest

/-- `DbState::next_expiration` (`src/db.rs:269-274`):
`expirations.iter().next().map(|e| e.0)` — the smallest instant, i.e. the
head of the sorted list. -/
def nextExpiration : List (Nat × String) → Option Nat
  | [] => none
  | (t, _) :: _ => some t

/-- The empty state built by `Db::new`. -/
def initState : DbStateL := ⟨[], [], false⟩

/-- `Db::get` (`src/db.rs:132-138`): plain map lookup — note that the entry's
`expires_at` is **not** consulted. -/
def dbGet (s : DbStateL) (k : String) : Option (List Nat) :=
  (entriesLookup k s.entries).map EntryL.data

/-- `Db::set` (`src/db.rs:143-201`).  `now` models `Instant::now()`; `expire`
the optional `Duration`.  Returns the new state together with the `notify`
flag: `true` iff `self.shared.background_task.notify_one()` is called
(exactly once) after the lock is released.  As in the source, `notify` is
computed from the **pre**-state's `next_expiration`, before the entry and
its expiration pair are inserted. -/
def dbSet (s : DbStateL) (now : Nat) (k : String) (v : List Nat)
    (expire : Option Nat) : DbStateL × Bool :=
  let we : Bool × Option Nat :=
    match expire with
    | none => (false, none)
    | some d =>
      let when := now + d
      (match nextExpiration s.expirations with
       | some t => decide (t > when)
       | none => true, some when)
  let notify := we.1
  let expiresAt := we.2
  let ins := entriesInsert k ⟨v, expiresAt⟩ s.entries
  let exps₁ :=
    match ins.1 with
    | some prev =>
      match prev.expiresAt with
      | some w => s.expirations.erase (w, k)
      | none => s.expirations
    | none => s.expirations
  let exps₂ :=
    match expiresAt with
    | some w => expInsert (w, k) exps₁
    | none => exps₁
  ({ s with entries := ins.2, expirations := exps₂ }, notify)

/-- The `while let Some(&(when, ref key)) = state.expirations.iter().next()`
loop of `purge_expired_keys`: while the earliest pair has `when ≤ now`,
remove the entry and the pair; stop returning `Some when` at the first
future pair. -/
def purgeLoop (now : Nat) :
    List (String × EntryL) → List (Nat × String) →
    List (String × EntryL) × List (Nat × String) × Option Nat
  | entries, [] => (entries, [], none)
  | entries, (when, key) :: rest =>
    if now < when then (entries, (when, key) :: rest, some when)
    else purgeLoop now (entriesRemove key entries) rest

/-- `DbSharedState::purge_expired_keys` (`src/db.rs:229-265`): no-op under
shutdown, otherwise run the purge loop at `now`; returns the new state and
the instant the background task should next sleep until. -/
def purgeExpiredKeys (s : DbStateL) (now : Nat) : DbStateL × Option Nat :=
  if s.shutdown then (s, none)
  else
    let r := purgeLoop now s.entries s.expirations
    ({ s with entries := r.1, expirations := r.2.1 }, r.2.2)

/-- `Db::shutdown_purge_task` (`src/db.rs:206-213`): set the shutdown latch
(the accompanying `notify_one` carries no state). -/
def dbShutdown (s : DbStateL) : DbStateL := { s with shutdown := true }

/-- Store states reachable from `Db::new` by completed mutations, each taken
at an arbitrary `Instant::now()`.  Mutations are `set`, the purge task's
`purge_expired_keys`, and the drop guard's shutdown. -/
inductive Reach : DbStateL → Prop where
  | init : Reach initState
  | set (s : DbStateL) (now : Nat) (k : String) (v : List Nat)
      (expire : Option Nat) : Reach s → Reach (dbSet s now k v expire).1
  | purge (s : DbStateL) (now : Nat) : Reach s → Reach (purgeExpiredKeys s now).1
  | shutdown (s : DbStateL) : Reach s → Reach (dbShutdown s)

/-! ## Parser helper (`src/parse.rs`) and commands (`src/cmd/*.rs`) -/

/-- `str::to_uppercase` restricted to ASCII, applied to UTF-8 bytes (the
command names and option tokens the code compares against are pure
ASCII). -/
def asciiUpper (b : Nat) : Nat := if 97 ≤ b ∧ b ≤ 122 then b - 32 else b

/-- Uppercase a byte string. -/
def upperB (bs : List Nat) : List Nat := bs.map asciiUpper

/-- `Parse::new`: accept only an `Array` frame; the cursor is the list of its
elements. -/
def parseNew : FrameL → Except ErrorL (List FrameL)
  | .array fs => .ok fs
  | _ => .error (.Protocol "expected array")

/-- `Parse::next`: `EndOfStream` when the fields are exhausted. -/
def nextF : List FrameL → Except ErrorL (FrameL × List FrameL)
  | [] => .error .EndOfStream
  | f :: rest => .ok (f, rest)

/-- `Parse::next_string` (`src/parse.rs:26-36`): a `SimpleString`, or a
`BulkString` put through `str::from_utf8`; anything else is a protocol
error. -/
def nextString (ps : List FrameL) : Except ErrorL (List Nat × List FrameL) :=
  match nextF ps with
  | .error e => .error e
  | .ok (.simpleString s, rest) => .ok (s, rest)
  | .ok (.bulkString data, rest) =>
    if utf8Valid data then .ok (data, rest)
    else .error (.Protocol "invalid utf-8")
  | .ok (_, _) => .error (.Protocol "expected simple frame or bulk frame")

/-- `Parse::next_bytes` (`src/parse.rs:38-46`). -/
def nextBytes (ps : List FrameL) : Except ErrorL (List Nat × List FrameL) :=
  match nextF ps with
  | .error e => .error e
  | .ok (.simpleString s, rest) => .ok (s, rest)
  | .ok (.bulkString data, rest) => .ok (data, rest)
  | .ok (_, _) => .error (.Protocol "expected simple frame or bulk frame")

/-- `Parse::next_int` (`src/parse.rs:48-60`).  The declared return type in
the source is `u64` (non-negative by construction), but the
`Frame::Integer(v)` arm returns the frame's `i64` payload unchanged, which
does not type-check as written; the arm is modelled faithfully to its text
by letting the value through, so the result type here is `Int`.  (`set.rs`
calls this helper under the name `next_int_unsigned`, which `parse.rs` does
not define.)  Textual frames go through `atoi::<u64>`. -/
def nextInt (ps : List FrameL) : Except ErrorL (Int × List FrameL) :=
  match nextF ps with
  | .error e => .error e
  | .ok (.integer v, rest) => .ok (v, rest)
  | .ok (.simpleString data, rest) =>
    match atoiU64 data with
    | some v => .ok ((v : Int), rest)
    | none => .error (.Protocol "invalid number")
  | .ok (.bulkString data, rest) =>
    match atoiU64 data with
    | some v => .ok ((v : Int), rest)
    | none => .error (.Protocol "invalid number")
  | .ok (_, _) => .error (.Protocol "expected int frame")

/-- `Parse::finish` (`src/parse.rs:62-68`). -/
def finishP : List FrameL → Except ErrorL Unit
  | [] => .ok ()
  | _ :: _ => .error (.Protocol "expected end of frame")

/-- `struct GetCmd`. -/
structure GetCmdL where
  key : List Nat
deriving DecidableEq, Repr

/-- `struct SetCmd`.  `expire` is the optional `Duration`, in milliseconds;
it is an `Int` because the source feeds `Duration::from_secs` /
`Duration::from_millis` the possibly-negative value coming out of the
integer helper (see `nextInt`). -/
structure SetCmdL where
  key : List Nat
  value : List Nat
  expire : Option Int
deriving DecidableEq, Repr

/-- `struct PingCmd`. -/
structure PingCmdL where
  msg : Option (List Nat)
deriving DecidableEq, Repr

/-- `struct PublishCmd`. -/
structure PublishCmdL where
  channel : List Nat
  message : List Nat
deriving DecidableEq, Repr

/-- `GetCmd::parse_frames`. -/
def getParseFrames (ps : List FrameL) : Except ErrorL (GetCmdL × List FrameL) :=
  match nextString ps with
  | .error e => .error e
  | .ok (key, rest) => .ok (⟨key⟩, rest)

/-- `SetCmd::parse_frames` (`src/cmd/set.rs:80-122`): key, value, then an
optional case-insensitive `EX <seconds>` / `PX <milliseconds>` option; any
other option token is a protocol error; `EndOfStream` means no option. -/
def setParseFrames (ps : List FrameL) : Except ErrorL (SetCmdL × List FrameL) :=
  match nextString ps with
  | .error e => .error e
  | .ok (key, ps₁) =>
    match nextBytes ps₁ with
    | .error e => .error e
    | .ok (value, ps₂) =>
      match nextString ps₂ with
      | .ok (s, ps₃) =>
        if upperB s = strB "EX" then
          match nextInt ps₃ with
          | .error e => .error e
          | .ok (secs, ps₄) => .ok (⟨key, value, some (secs * 1000)⟩, ps₄)
        else if upperB s = strB "PX" then
          match nextInt ps₃ with
          | .error e => .error e
          | .ok (ms, ps₄) => .ok (⟨key, value, some ms⟩, ps₄)
        else .error (.Protocol "currently, `SET` only supports the expiration option")
      | .error .EndOfStream => .ok (⟨key, value, none⟩, ps₂)
      | .error e => .error e

/-- `PingCmd::parse_frames`. -/
def pingParseFrames (ps : List FrameL) : Except ErrorL (PingCmdL × List FrameL) :=
  match nextBytes ps with
  | .ok (msg, rest) => .ok (⟨some msg⟩, rest)
  | .error .EndOfStream => .ok (⟨none⟩, ps)
  | .error e => .error e

/-- `PublishCmd::parse_frames`. -/
def publishParseFrames (ps : List FrameL) : Except ErrorL (PublishCmdL × List FrameL) :=
  match nextString ps with
  | .error e => .error e
  | .ok (channel, ps₁) =>
    match nextBytes ps₁ with
    | .error e => .error e
    | .ok (message, ps₂) => .ok (⟨channel, message⟩, ps₂)

/-- `enum CommandVariant`.  (`Subscribe` exists in the source but no command
name dispatches to it.) -/
inductive CommandVariantL where
  | get (cmd : GetCmdL)
  | set (cmd : SetCmdL)
  | ping (cmd : PingCmdL)
  | publish (cmd : PublishCmdL)
deriving DecidableEq, Repr

/-- `CommandVariant::from_frame` (`src/cmd/mod.rs:55-71`): open a parser over
the array, read and uppercase the first element, dispatch on `"GET"`,
`"SET"`, `"PING"` **and `"PUB"`**, `finish()`, and return
`UnknownCommand(name)` (the uppercased name) for anything else. -/
def fromFrame (f : FrameL) : Except ErrorL CommandVariantL :=
  match parseNew f with
  | .error e => .error e
  | .ok ps =>
    match nextString ps with
    | .error e => .error e
    | .ok (name, ps₁) =>
      let commandName := upperB name
      let cmd : Except ErrorL (CommandVariantL × List FrameL) :=
        if commandName = strB "GET" then
          match getParseFrames ps₁ with
          | .error e => .error e
          | .ok (c, ps₂) => .ok (.get c, ps₂)
        else if commandName = strB "SET" then
          match setParseFrames ps₁ with
          | .error e => .error e
          | .ok (c, ps₂) => .ok (.set c, ps₂)
        else if commandName = strB "PING" then
          match pingParseFrames ps₁ with
          | .error e => .error e
          | .ok (c, ps₂) => .ok (.ping c, ps₂)
        else if commandName = strB "PUB" then
          match publishParseFrames ps₁ with
          | .error e => .error e
          | .ok (c, ps₂) => .ok (.publish c, ps₂)
        else .error (.UnknownCommand commandName)
      match cmd with
      | .error e => .error e
      | .ok (c, ps₂) =>
        match finishP ps₂ with
        | .error e => .error e
        | .ok _ => .ok c

/-! ## Client (`src/clients/client.rs`) -/

/-- `Client::read_response` (`src/clients/client.rs:124-140`): `None` from
`read_frame` (server closed the connection) is a `ConnectionReset` I/O
error; a `SimpleError` reply becomes `Error::Response` with its message;
any other frame is passed through. -/
def readResponse : Option FrameL → Except ErrorL FrameL
  | some (.simpleError msg) => .error (.Response msg)
  | some f => .ok f
  | none => .error (.Io "connection reset by server")

/-- The reply interpretation of `Client::get`
(`src/clients/client.rs:69-84`), applied to the single reply frame
(`None` = connection closed): `SimpleString` and `BulkString` yield their
bytes, **`Frame::Null`** yields `None`, and every other frame — including
`NullBulkString`, the frame `"$-1\r\n"` actually decodes to — hits the
`unexpected frame` arm.  (The source formats the offending frame into the
message with `{frame}`, though `Frame` has no `Display` impl; the message
is abbreviated here, only the error constructor is relied upon.) -/
def clientGetInterpret (resp : Option FrameL) : Except ErrorL (Option (List Nat)) :=
  match readResponse resp with
  | .error e => .error e
  | .ok (.simpleString val) => .ok (some val)
  | .ok (.bulkString val) => .ok (some val)
  | .ok .null => .ok none
  | .ok _ => .error (.Response (strB "unexpected frame"))

/-! ## Store lemmas: the `(t, k) ∈ expirations ↔ entries[k].expires_at = t`
invariant over reachable states -/

theorem pairLt_irrefl (a : Nat × String) : ¬ pairLt a a := by
  simp [pairLt]

theorem pairLt_trans {a b c : Nat × String} (h₁ : pairLt a b) (h₂ : pairLt b c) :
    pairLt a c := by
  rcases h₁ with h₁ | ⟨h₁, h₁s⟩ <;> rcases h₂ with h₂ | ⟨h₂, h₂s⟩
  · exact Or.inl (h₁.trans h₂)
  · exact Or.inl (h₂ ▸ h₁)
  · exact Or.inl (h₁ ▸ h₂)
  · exact Or.inr ⟨h₁.trans h₂, h₁s.trans h₂s⟩

theorem pairLt_of_ne_of_not_lt {a b : Nat × String} (hne : a ≠ b)
    (h : ¬ pairLt a b) : pairLt b a := by
  unfold pairLt at *
  rcases Nat.lt_trichotomy a.1 b.1 with h₁ | h₁ | h₁
  · exact absurd (Or.inl h₁) h
  · rcases lt_trichotomy a.2 b.2 with h₂ | h₂ | h₂
    · exact absurd (Or.inr ⟨h₁, h₂⟩) h
    · exact absurd (Prod.ext h₁ h₂) hne
    · exact Or.inr ⟨h₁.symm, h₂⟩
  · exact Or.inl h₁

theorem ne_of_pairLt {a b : Nat × String} (h : pairLt a b) : a ≠ b := by
  rintro rfl; exact pairLt_irrefl a h

theorem nodup_of_pairwise {l : List (Nat × String)} (h : List.Pairwise pairLt l) :
    l.Nodup :=
  h.imp fun hab => ne_of_pairLt hab

theorem mem_expInsert {p x : Nat × String} {l : List (Nat × String)} :
    x ∈ expInsert p l ↔ x = p ∨ x ∈ l := by
  induction l with
  | nil => simp [expInsert]
  | cons q rest ih =>
    by_cases hpq : p = q
    · subst hpq
      rw [expInsert, if_pos rfl]
      exact ⟨fun h => Or.inr h,
        fun h => h.elim (fun hx => hx ▸ List.mem_cons_self _ _) id⟩
    · by_cases hlt : pairLt p q
      · rw [expInsert, if_neg hpq, if_pos hlt]
        simp only [List.mem_cons]
      · rw [expInsert, if_neg hpq, if_neg hlt]
        simp only [List.mem_cons, ih]
        tauto

theorem pairwise_expInsert {p : Nat × String} {l : List (Nat × String)}
    (h : List.Pairwise pairLt l) : List.Pairwise pairLt (expInsert p l) := by
  induction l with
  | nil => simp [expInsert]
  | cons q rest ih =>
    by_cases hpq : p = q
    · subst hpq
      rw [expInsert, if_pos rfl]
      exact h
    · rw [List.pairwise_cons] at h
      obtain ⟨hqall, hrest⟩ := h
      by_cases hlt : pairLt p q
      · rw [expInsert, if_neg hpq, if_pos hlt, List.pairwise_cons]
        refine ⟨?_, ?_⟩
        · intro b hb
          rcases List.mem_cons.mp hb with rfl | hb₂
          · exact hlt
          · exact pairLt_trans hlt (hqall b hb₂)
        · rw [List.pairwise_cons]
          exact ⟨hqall, hrest⟩
      · rw [expInsert, if_neg hpq, if_neg hlt, List.pairwise_cons]
        refine ⟨?_, ih hrest⟩
        intro b hb
        rcases mem_expInsert.mp hb with rfl | hb₂
        · exact pairLt_of_ne_of_not_lt hpq hlt
        · exact hqall b hb₂

theorem lookup_entriesInsert_self (k : String) (e : EntryL)
    (l : List (String × EntryL)) :
    entriesLookup k (entriesInsert k e l).2 = some e := by
  induction l with
  | nil => simp [entriesInsert, entriesLookup]
  | cons he rest ih =>
    obtain ⟨k₁, e₁⟩ := he
    by_cases h : k₁ = k <;> simp [entriesInsert, entriesLookup, h, ih]

theorem lookup_entriesInsert_other {k k₂ : String} (hne : k₂ ≠ k) (e : EntryL)
    (l : List (String × EntryL)) :
    entriesLookup k₂ (entriesInsert k e l).2 = entriesLookup k₂ l := by
  have hkk : ¬ (k = k₂) := fun hh => hne hh.symm
  induction l with
  | nil => simp [entriesInsert, entriesLookup, hkk]
  | cons he rest ih =>
    obtain ⟨k₁, e₁⟩ := he
    by_cases h : k₁ = k
    · subst h
      simp [entriesInsert, entriesLookup, hkk]
    · simp [entriesInsert, entriesLookup, h, ih]

theorem entriesInsert_prev (k : String) (e : EntryL) (l : List (String × EntryL)) :
    (entriesInsert k e l).1 = entriesLookup k l := by
  induction l with
  | nil => simp [entriesInsert, entriesLookup]
  | cons he rest ih =>
    obtain ⟨k₁, e₁⟩ := he
    by_cases h : k₁ = k <;> simp [entriesInsert, entriesLookup, h, ih]

theorem mem_keys_entriesInsert {k k₁ : String} {e : EntryL}
    {l : List (String × EntryL)} :
    k₁ ∈ ((entriesInsert k e l).2.map Prod.fst) ↔ k₁ = k ∨ k₁ ∈ l.map Prod.fst := by
  induction l with
  | nil => simp [entriesInsert]
  | cons he rest ih =>
    obtain ⟨k₂, e₂⟩ := he
    by_cases h : k₂ = k
    · subst h
      simp only [entriesInsert, if_pos]
      simp only [List.map_cons, List.mem_cons]
      tauto
    · simp only [entriesInsert]
      rw [if_neg h]
      simp only [List.map_cons, List.mem_cons, ih]
      tauto

theorem keys_entriesInsert (k : String) (e : EntryL) (l : List (String × EntryL))
    (h : ((l.map Prod.fst).Nodup)) :
    (((entriesInsert k e l).2.map Prod.fst).Nodup) := by
  induction l with
  | nil => simp [entriesInsert]
  | cons he rest ih =>
    obtain ⟨k₂, e₂⟩ := he
    simp only [List.map_cons, List.nodup_cons] at h
    obtain ⟨hk₂, hrest⟩ := h
    by_cases hk : k₂ = k
    · subst hk
      simp only [entriesInsert, if_pos]
      simp only [List.map_cons, List.nodup_cons]
      exact ⟨hk₂, hrest⟩
    · simp only [entriesInsert]
      rw [if_neg hk]
      simp only [List.map_cons, List.nodup_cons]
      refine ⟨?_, ih hrest⟩
      rw [mem_keys_entriesInsert]
      intro hmem
      rcases hmem with h₃ | h₃
      · exact hk h₃
      · exact hk₂ h₃

theorem lookup_entriesRemove_other {k key : String} (hne : k ≠ key)
    (l : List (String × EntryL)) :
    entriesLookup k (entriesRemove key l) = entriesLookup k l := by
  induction l with
  | nil => simp [entriesRemove]
  | cons he rest ih =>
    obtain ⟨k₁, e₁⟩ := he
    by_cases h : k₁ = key
    · subst h
      have : ¬ (k₁ = k) := fun hh => hne hh.symm
      simp [entriesRemove, entriesLookup, this]
    · simp [entriesRemove, entriesLookup, h, ih]

theorem lookup_entriesRemove_self (key : String) (l : List (String × EntryL))
    (h : (l.map Prod.fst).Nodup) :
    entriesLookup key (entriesRemove key l) = none := by
  induction l with
  | nil => simp [entriesRemove, entriesLookup]
  | cons he rest ih =>
    obtain ⟨k₁, e₁⟩ := he
    simp only [List.map_cons, List.nodup_cons] at h
    obtain ⟨hk₁, hrest⟩ := h
    by_cases hk : k₁ = key
    · subst hk
      rw [entriesRemove, if_pos rfl]
      clear ih
      induction rest with
      | nil => simp [entriesLookup]
      | cons he₂ rest₂ ih₂ =>
        obtain ⟨k₂, e₂⟩ := he₂
        simp only [List.map_cons, List.mem_cons, not_or] at hk₁
        rw [entriesLookup, if_neg (fun h => hk₁.1 h.symm)]
        simp only [List.map_cons, List.nodup_cons] at hrest
        exact ih₂ hk₁.2 hrest.2
    · rw [entriesRemove, if_neg hk, entriesLookup, if_neg hk]
      exact ih hrest

theorem mem_keys_entriesRemove {key k₁ : String} {l : List (String × EntryL)}
    (h : k₁ ∈ ((entriesRemove key l).map Prod.fst)) : k₁ ∈ l.map Prod.fst := by
  induction l with
  | nil => simpa [entriesRemove] using h
  | cons he rest ih =>
    obtain ⟨k₂, e₂⟩ := he
    by_cases h₂ : k₂ = key
    · subst h₂
      rw [entriesRemove, if_pos rfl] at h
      simp only [List.map_cons, List.mem_cons]
      exact Or.inr h
    · rw [entriesRemove, if_neg h₂] at h
      simp only [List.map_cons, List.mem_cons] at h ⊢
      rcases h with h₃ | h₃
      · exact Or.inl h₃
      · exact Or.inr (ih h₃)

theorem keys_entriesRemove (key : String) (l : List (String × EntryL))
    (h : (l.map Prod.fst).Nodup) :
    ((entriesRemove key l).map Prod.fst).Nodup := by
  induction l with
  | nil => simpa [entriesRemove] using h
  | cons he rest ih =>
    obtain ⟨k₁, e₁⟩ := he
    simp only [List.map_cons, List.nodup_cons] at h
    obtain ⟨hk₁, hrest⟩ := h
    by_cases hk : k₁ = key
    · rw [entriesRemove, if_pos hk]
      exact hrest
    · rw [entriesRemove, if_neg hk]
      simp only [List.map_cons, List.nodup_cons]
      exact ⟨fun hmem => hk₁ (mem_keys_entriesRemove hmem), ih hrest⟩

/-- The coupled-collections invariant of `DbState`: strictly sorted
expirations, unique keys, and the `(t, k) ∈ expirations ↔
entries[k].expires_at = t` synchronization. -/
def Inv (s : DbStateL) : Prop :=
  List.Pairwise pairLt s.expirations ∧
  (s.entries.map Prod.fst).Nodup ∧
  ∀ t k, (t, k) ∈ s.expirations ↔
    ∃ e, entriesLookup k s.entries = some e ∧ e.expiresAt = some t

/-- The expirations list after `Db::set` removed the previous entry's pair
(the `if let Some(prev) = prev { if let Some(when) = prev.expires_at { ... } }`
block). -/
def eraseOldPair (s : DbStateL) (k : String) : List (Nat × String) :=
  match entriesLookup k s.entries with
  | some pe =>
    match pe.expiresAt with
    | some w => s.expirations.erase (w, k)
    | none => s.expirations
  | none => s.expirations

theorem dbSet_eq (s : DbStateL) (now : Nat) (k : String) (v : List Nat)
    (expire : Option Nat) :
    (dbSet s now k v expire).1 =
      { entries := (entriesInsert k ⟨v, expire.map (fun d => now + d)⟩ s.entries).2,
        expirations :=
          match expire with
          | some d => expInsert (now + d, k) (eraseOldPair s k)
          | none => eraseOldPair s k,
        shutdown := s.shutdown } := by
  cases expire <;>
    simp only [dbSet, eraseOldPair, entriesInsert_prev] <;> rfl

theorem pairwise_eraseOldPair (s : DbStateL) (k : String)
    (h : List.Pairwise pairLt s.expirations) :
    List.Pairwise pairLt (eraseOldPair s k) := by
  unfold eraseOldPair
  split
  · split
    · exact List.Pairwise.sublist (List.erase_sublist _ _) h
    · exact h
  · exact h

theorem not_mem_eraseOldPair {s : DbStateL} {k : String} (h : Inv s) (t : Nat) :
    (t, k) ∉ eraseOldPair s k := by
  obtain ⟨hsort, hkeys, hsync⟩ := h
  unfold eraseOldPair
  split
  next pe hl =>
    split
    next w hw =>
      intro hmem
      have hnd : s.expirations.Nodup := nodup_of_pairwise hsort
      obtain ⟨hne, hmem₂⟩ := hnd.mem_erase_iff.mp hmem
      obtain ⟨e, he, het⟩ := (hsync t k).mp hmem₂
      rw [hl] at he
      obtain rfl := Option.some.inj he
      rw [hw] at het
      obtain rfl := Option.some.inj het
      exact hne rfl
    next hw =>
      intro hmem
      obtain ⟨e, he, het⟩ := (hsync t k).mp hmem
      rw [hl] at he
      obtain rfl := Option.some.inj he
      rw [hw] at het
      exact Option.noConfusion het
  next hl =>
    intro hmem
    obtain ⟨e, he, het⟩ := (hsync t k).mp hmem
    rw [hl] at he
    exact Option.noConfusion he

theorem mem_eraseOldPair_other {s : DbStateL} {k k₂ : String}
    (h : List.Pairwise pairLt s.expirations) (hne : k₂ ≠ k) (t : Nat) :
    ((t, k₂) ∈ eraseOldPair s k ↔ (t, k₂) ∈ s.expirations) := by
  unfold eraseOldPair
  split
  next pe hl =>
    split
    next w hw =>
      rw [(nodup_of_pairwise h).mem_erase_iff]
      constructor
      · exact fun hh => hh.2
      · intro hh
        refine ⟨?_, hh⟩
        intro heq
        injection heq with h₁ h₂
        exact hne h₂
    next hw => exact Iff.rfl
  next hl => exact Iff.rfl

theorem inv_set (s : DbStateL) (now : Nat) (k : String) (v : List Nat)
    (expire : Option Nat) (h : Inv s) : Inv (dbSet s now k v expire).1 := by
  have hinv := h
  obtain ⟨hsort, hkeys, hsync⟩ := h
  rw [dbSet_eq]
  refine ⟨?_, ?_, ?_⟩
  · cases expire with
    | none => exact pairwise_eraseOldPair s k hsort
    | some d => exact pairwise_expInsert (pairwise_eraseOldPair s k hsort)
  · exact keys_entriesInsert k _ s.entries hkeys
  · intro t k₂
    by_cases hk₂ : k₂ = k
    · subst hk₂
      rw [lookup_entriesInsert_self]
      cases expire with
      | none =>
        constructor
        · intro hmem
          exact absurd hmem (not_mem_eraseOldPair hinv t)
        · rintro ⟨e, he, het⟩
          obtain rfl := Option.some.inj he
          exact Option.noConfusion het
      | some d =>
        show (t, k₂) ∈ expInsert (now + d, k₂) (eraseOldPair s k₂) ↔ _
        rw [mem_expInsert]
        constructor
        · intro hmem
          rcases hmem with heq | hmem
          · injection heq with h₁ h₂
            subst h₁
            exact ⟨_, rfl, rfl⟩
          · exact absurd hmem (not_mem_eraseOldPair hinv t)
        · rintro ⟨e, he, het⟩
          obtain rfl := Option.some.inj he
          obtain rfl := Option.some.inj het
          exact Or.inl rfl
    · rw [lookup_entriesInsert_other hk₂]
      cases expire with
      | none =>
        rw [show (match (none : Option Nat) with
              | some d => expInsert (now + d, k) (eraseOldPair s k)
              | none => eraseOldPair s k) = eraseOldPair s k from rfl]
        rw [mem_eraseOldPair_other hsort hk₂]
        exact hsync t k₂
      | some d =>
        show (t, k₂) ∈ expInsert (now + d, k) (eraseOldPair s k) ↔ _
        rw [mem_expInsert]
        constructor
        · intro hmem
          rcases hmem with heq | hmem
          · exact absurd (congrArg Prod.snd heq) hk₂
          · exact (hsync t k₂).mp ((mem_eraseOldPair_other hsort hk₂ t).mp hmem)
        · intro hr
          exact Or.inr ((mem_eraseOldPair_other hsort hk₂ t).mpr ((hsync t k₂).mpr hr))

theorem purgeLoop_inv (now : Nat) :
    ∀ (exps : List (Nat × String)) (entries : List (String × EntryL)),
    List.Pairwise pairLt exps →
    (entries.map Prod.fst).Nodup →
    (∀ t k, (t, k) ∈ exps ↔ ∃ e, entriesLookup k entries = some e ∧ e.expiresAt = some t) →
    List.Pairwise pairLt (purgeLoop now entries exps).2.1 ∧
    (((purgeLoop now entries exps).1.map Prod.fst).Nodup) ∧
    (∀ t k, (t, k) ∈ (purgeLoop now entries exps).2.1 ↔
      ∃ e, entriesLookup k (purgeLoop now entries exps).1 = some e ∧ e.expiresAt = some t) := by
  intro exps
  induction exps with
  | nil =>
    intro entries h₁ h₂ h₃
    exact ⟨by simpa [purgeLoop] using h₁, by simpa [purgeLoop] using h₂,
      by simpa [purgeLoop] using h₃⟩
  | cons p rest ih =>
    obtain ⟨when, key⟩ := p
    intro entries h₁ h₂ h₃
    rw [purgeLoop]
    by_cases hnw : now < when
    · rw [if_pos hnw]
      exact ⟨h₁, h₂, h₃⟩
    · rw [if_neg hnw]
      rw [List.pairwise_cons] at h₁
      obtain ⟨hall, htail⟩ := h₁
      apply ih _ htail (keys_entriesRemove key entries h₂)
      intro t k₂
      by_cases hk : k₂ = key
      · subst hk
        rw [lookup_entriesRemove_self k₂ entries h₂]
        constructor
        · intro hmem
          obtain ⟨e, he, het⟩ := (h₃ t k₂).mp (List.mem_cons_of_mem _ hmem)
          obtain ⟨e₂, he₂, het₂⟩ := (h₃ when k₂).mp (List.mem_cons_self _ _)
          rw [he] at he₂
          obtain rfl := Option.some.inj he₂
          rw [het] at het₂
          obtain rfl := Option.some.inj het₂
          rcases hall _ hmem with hlt | ⟨heq, hlt⟩
          · exact absurd hlt (lt_irrefl _)
          · exact absurd hlt (lt_irrefl _)
        · rintro ⟨e, he, -⟩
          exact Option.noConfusion he
      · rw [lookup_entriesRemove_other hk]
        constructor
        · intro hmem
          exact (h₃ t k₂).mp (List.mem_cons_of_mem _ hmem)
        · intro hr
          rcases List.mem_cons.mp ((h₃ t k₂).mpr hr) with heq | hmem
          · exact absurd (congrArg Prod.snd heq) hk
          · exact hmem

theorem purgeLoop_future (now : Nat) :
    ∀ (exps : List (Nat × String)) (entries : List (String × EntryL)),
    List.Pairwise pairLt exps →
    ∀ p ∈ (purgeLoop now entries exps).2.1, now < p.1 := by
  intro exps
  induction exps with
  | nil =>
    intro entries _ p hp
    simp [purgeLoop] at hp
  | cons q rest ih =>
    obtain ⟨when, key⟩ := q
    intro entries h₁ p hp
    rw [purgeLoop] at hp
    by_cases hnw : now < when
    · rw [if_pos hnw] at hp
      rcases List.mem_cons.mp hp with rfl | hp₂
      · exact hnw
      · rw [List.pairwise_cons] at h₁
        rcases h₁.1 _ hp₂ with hlt | ⟨heq, -⟩
        · exact hnw.trans hlt
        · exact heq ▸ hnw
    · rw [if_neg hnw] at hp
      rw [List.pairwise_cons] at h₁
      exact ih _ h₁.2 p hp

theorem purgeLoop_lookup (now : Nat) (k : String) :
    ∀ (exps : List (Nat × String)) (entries : List (String × EntryL)),
    (entries.map Prod.fst).Nodup →
    entriesLookup k (purgeLoop now entries exps).1 = none ∨
    entriesLookup k (purgeLoop now entries exps).1 = entriesLookup k entries := by
  intro exps
  induction exps with
  | nil => intro entries _; right; rfl
  | cons q rest ih =>
    obtain ⟨when, key⟩ := q
    intro entries hnd
    rw [purgeLoop]
    by_cases hnw : now < when
    · rw [if_pos hnw]; right; rfl
    · rw [if_neg hnw]
      rcases ih (entriesRemove key entries) (keys_entriesRemove key entries hnd) with h | h
      · exact Or.inl h
      · by_cases hk : k = key
        · subst hk
          rw [lookup_entriesRemove_self k entries hnd] at h
          exact Or.inl h
        · rw [lookup_entriesRemove_other hk] at h
          exact Or.inr h

theorem inv_purge (s : DbStateL) (now : Nat) (h : Inv s) :
    Inv (purgeExpiredKeys s now).1 := by
  obtain ⟨hsort, hkeys, hsync⟩ := h
  unfold purgeExpiredKeys
  by_cases hsd : s.shutdown
  · rw [if_pos hsd]
    exact ⟨hsort, hkeys, hsync⟩
  · rw [if_neg hsd]
    obtain ⟨h₁, h₂, h₃⟩ := purgeLoop_inv now s.expirations s.entries hsort hkeys hsync
    exact ⟨h₁, h₂, h₃⟩

theorem inv_shutdown (s : DbStateL) (h : Inv s) : Inv (dbShutdown s) := h

theorem reach_inv {s : DbStateL} (h : Reach s) : Inv s := by
  induction h with
  | init => exact ⟨List.Pairwise.nil, List.nodup_nil, by simp [initState, entriesLookup]⟩
  | set s now k v expire _ ih => exact inv_set s now k v expire ih
  | purge s now _ ih => exact inv_purge s now ih
  | shutdown s _ ih => exact inv_shutdown s ih

/-- The `notify` flag `Db::set` computes, as a function of the pre-state. -/
theorem dbSet_notify (s : DbStateL) (now : Nat) (k : String) (v : List Nat)
    (expire : Option Nat) :
    (dbSet s now k v expire).2 =
      match expire with
      | none => false
      | some d =>
        match nextExpiration s.expirations with
        | some t => decide (now + d < t)
        | none => true := by
  cases expire <;> rfl

/-- C5: after every completed store mutation (set, purge, shutdown) — i.e.
in every reachable store state — a pair `(t, k)` is in the `expirations`
set if and only if the `entries` map holds an entry for `k` whose
`expires_at` equals `t`. -/
theorem claim5_expirations_sync (s : DbStateL) (h : Reach s) (t : Nat) (k : String) :
    (t, k) ∈ s.expirations ↔
      ∃ e, entriesLookup k s.entries = some e ∧ e.expiresAt = some t :=
  (reach_inv h).2.2 t k

/-- Witness for C5 at the concrete reachable state `set "k" [7] (expire 1)`
from the empty store at time 0. -/
theorem claim5_witness :
    ((1, "k") ∈ (dbSet initState 0 "k" [7] (some 1)).1.expirations ↔
      ∃ e, entriesLookup "k" (dbSet initState 0 "k" [7] (some 1)).1.entries = some e ∧
        e.expiresAt = some 1) :=
  claim5_expirations_sync _ (Reach.set initState 0 "k" [7] (some 1) Reach.init) 1 "k"

/-- C4: a `set` notifies the purge task (exactly once — the Bool models the
single `notify_one()` call) iff an expiration duration is given and the
resulting `expires_at = now + d` is strictly earlier than every pending
expiration (vacuously so when none is pending); in every other case,
including every set without a duration, it does not notify. -/
theorem claim4_notify_iff (s : DbStateL) (h : Reach s) (now : Nat) (k : String)
    (v : List Nat) (expire : Option Nat) :
    (dbSet s now k v expire).2 = true ↔
      ∃ d, expire = some d ∧ ∀ p ∈ s.expirations, now + d < p.1 := by
  have hsort := (reach_inv h).1
  rw [dbSet_notify]
  cases expire with
  | none =>
    simp
  | some d =>
    cases hexp : s.expirations with
    | nil =>
      simp [nextExpiration]
    | cons q rest =>
      rw [hexp] at hsort
      rw [List.pairwise_cons] at hsort
      obtain ⟨hall, -⟩ := hsort
      obtain ⟨t₀, k₀⟩ := q
      simp only [nextExpiration, decide_eq_true_eq]
      constructor
      · intro hd
        refine ⟨d, rfl, ?_⟩
        intro p hp
        rcases List.mem_cons.mp hp with rfl | hp₂
        · exact hd
        · rcases hall _ hp₂ with hlt | ⟨heq, -⟩
          · exact hd.trans hlt
          · exact heq ▸ hd
      · rintro ⟨d', hd', hand⟩
        obtain rfl := Option.some.inj hd'
        exact hand (t₀, k₀) (List.mem_cons_self _ _)

/-- Witness for C4: on the empty store (no pending expiration) a `set` with
a duration notifies. -/
theorem claim4_witness : (dbSet initState 5 "k" [1] (some 3)).2 = true := by
  have h := claim4_notify_iff initState Reach.init 5 "k" [1] (some 3)
  exact h.mpr ⟨3, rfl, by simp [initState]⟩

/-- C1, counterexample: the claim "in every reachable store state, `get`
returns nothing for a key whose entry is strictly past its `expires_at`" is
false: `Db::get` does not consult `expires_at`, and purging is a separate
mutation, so the state reached by `set "k" [7] (expire at instant 1)`
still returns the data at any `now > 1` until the purge task runs. -/
theorem claim1_cex :
    ¬ (∀ s : DbStateL, Reach s → ∀ now t : Nat, ∀ k : String, ∀ e : EntryL,
        entriesLookup k s.entries = some e → e.expiresAt = some t → t < now →
        dbGet s k = none) := by
  intro h
  have hr : Reach (dbSet initState 0 "k" [7] (some 1)).1 :=
    Reach.set initState 0 "k" [7] (some 1) Reach.init
  have h₂ := h _ hr 2 1 "k" ⟨[7], some 1⟩ rfl rfl (by omega)
  rw [show dbGet (dbSet initState 0 "k" [7] (some 1)).1 "k" = some [7] from rfl] at h₂
  exact Option.noConfusion h₂

/-- C1, amended (purge-then-read): in every reachable, non-shut-down store
state, a `get` performed right after `purge_expired_keys` at the current
instant returns nothing for every key whose entry was strictly past its
`expires_at`. -/
theorem claim1_get_after_purge (s : DbStateL) (h : Reach s)
    (hsd : s.shutdown = false) (now t : Nat) (k : String) (e : EntryL)
    (hl : entriesLookup k s.entries = some e) (he : e.expiresAt = some t)
    (ht : t < now) :
    dbGet (purgeExpiredKeys s now).1 k = none := by
  obtain ⟨hsort, hkeys, hsync⟩ := reach_inv h
  unfold purgeExpiredKeys
  rw [if_neg (by rw [hsd]; exact Bool.false_ne_true)]
  obtain ⟨-, -, h₃⟩ := purgeLoop_inv now s.expirations s.entries hsort hkeys hsync
  have hfut := purgeLoop_future now s.expirations s.entries hsort
  rcases purgeLoop_lookup now k s.expirations s.entries hkeys with hnone | hsame
  · simp [dbGet, hnone]
  · rw [hl] at hsame
    exfalso
    have hmem := (h₃ t k).mpr ⟨e, hsame, he⟩
    have := hfut (t, k) hmem
    omega

/-- Witness for the amended C1 at the concrete trace `set` then purge at
instant 2. -/
theorem claim1_witness :
    dbGet (purgeExpiredKeys (dbSet initState 0 "k" [7] (some 1)).1 2).1 "k" = none :=
  claim1_get_after_purge _ (Reach.set initState 0 "k" [7] (some 1) Reach.init)
    rfl 2 1 "k" ⟨[7], some 1⟩ rfl rfl (by omega)

/-- C2: the spec claims every constructible `Frame` round-trips through the
connection's frame writer (with only the `NullBulkString`/`Null` merging on
`$-1`), but `Connection::write_value`'s match has **no arm** for
`Frame::NullBulkString` or `Frame::NullArray` — the match is not exhaustive
over the `Frame` enum of `frame.rs`, so those frames have no encoding at
all (and the `Integer` arm feeds the `i64` payload to the `u64`-typed
`write_decimal`, leaving negative integers unencodable).  This theorem
evaluates the embedded writer at the offending variants; the accompanying
`connection.rs` test itself expects `"$-1\r\n"` to decode to `Frame::Null`,
while `Frame::parse` decodes it to `NullBulkString`. -/
theorem claim2_write_value_missing_arms :
    writeValue FrameL.nullBulkString = none ∧
    writeValue FrameL.nullArray = none ∧
    writeValue (FrameL.integer (-1)) = none ∧
    writeValue FrameL.null = some (strB "$-1\r\n") ∧
    FrameL.parse (strB "$-1\r\n") = .ok (FrameL.nullBulkString, 5) :=
  ⟨rfl, rfl, rfl, rfl, rfl⟩

/-- C3: the claim (and the spec) says `Client::get` yields `None` on a
`NullBulkString` reply; the code instead maps `Frame::Null` to `None` and
sends `NullBulkString` — the frame `"$-1\r\n"` actually decodes to, and the
one the server's GET handler sends for a missing key — to the
"unexpected frame" error arm.  This contradicts the method's own doc
("If the key does not exist None is returned"). -/
theorem claim3_client_get_null_mismatch :
    clientGetInterpret (some FrameL.nullBulkString) =
      .error (.Response (strB "unexpected frame")) ∧
    clientGetInterpret (some FrameL.null) = .ok none ∧
    clientGetInterpret (some (FrameL.bulkString (strB "bar"))) =
      .ok (some (strB "bar")) ∧
    clientGetInterpret (some (FrameL.simpleString (strB "bar"))) =
      .ok (some (strB "bar")) :=
  ⟨rfl, rfl, rfl, rfl⟩

/-- C6: the claim says the integer-reading helper returns only non-negative
values (its declared Rust type is `u64`), but the `Frame::Integer(v)` arm
forwards the frame's `i64` unchecked (it does not even type-check as
written, and `set.rs` calls the helper under the non-existent name
`next_int_unsigned`), so a negative `Integer` frame flows through: `SET k v
EX -5` parses to an impossible negative duration instead of erroring. -/
theorem claim6_next_int_negative :
    nextInt [FrameL.integer (-5)] = .ok (-5, []) ∧ ((-5 : Int) < 0) ∧
    setParseFrames [FrameL.bulkString (strB "k"), FrameL.bulkString (strB "v"),
        FrameL.simpleString (strB "EX"), FrameL.integer (-5)] =
      .ok (⟨strB "k", strB "v", some (-5000)⟩, []) :=
  ⟨rfl, by decide, rfl⟩

/-- C7, counterexample: `CommandVariant::from_frame` also dispatches the
command name `PUB` (to `PublishCmd`), so a well-formed array whose first
element uppercases to `PUB` — which is none of GET, SET, PING — does not
yield `UnknownCommand`. -/
theorem claim7_cex :
    fromFrame (.array [.simpleString (strB "PUB"), .simpleString (strB "ch"),
        .bulkString (strB "msg")]) =
      .ok (.publish ⟨strB "ch", strB "msg"⟩) ∧
    upperB (strB "PUB") ≠ strB "GET" ∧ upperB (strB "PUB") ≠ strB "SET" ∧
    upperB (strB "PUB") ≠ strB "PING" :=
  ⟨rfl, by decide, by decide, by decide⟩

/-- C7, amended: for every well-formed command array whose first element,
uppercased, is none of the recognized names GET, SET, PING **and PUB**,
`from_frame` returns `UnknownCommand` carrying the uppercased name and
dispatches no command. -/
theorem claim7_unknown_command (f : FrameL) (ps : List FrameL) (name : List Nat)
    (rest : List FrameL)
    (h₁ : parseNew f = .ok ps) (h₂ : nextString ps = .ok (name, rest))
    (h₃ : upperB name ≠ strB "GET") (h₄ : upperB name ≠ strB "SET")
    (h₅ : upperB name ≠ strB "PING") (h₆ : upperB name ≠ strB "PUB") :
    fromFrame f = .error (.UnknownCommand (upperB name)) := by
  simp only [fromFrame, h₁, h₂, if_neg h₃, if_neg h₄, if_neg h₅, if_neg h₆]

/-- Witness for the amended C7 at the concrete command name `NOPE`. -/
theorem claim7_witness :
    fromFrame (.array [.simpleString (strB "NOPE")]) =
      .error (.UnknownCommand (strB "NOPE")) :=
  claim7_unknown_command (.array [.simpleString (strB "NOPE")])
    [.simpleString (strB "NOPE")] (strB "NOPE") [] rfl rfl
    (by decide) (by decide) (by decide) (by decide)

/-- C9, counterexample: on the byte sequence `"$-abc"`, `Frame::check`
succeeds (the `$-` branch blindly skips four bytes), yet `Frame::parse` on
the same bytes reports `IncompleteFrame` (its `get_line` finds no CRLF), so
check success does not rule out parse reporting `IncompleteFrame`. -/
theorem claim9_cex :
    FrameL.check (strB "$-abc") = .ok 5 ∧
    FrameL.parse (strB "$-abc") = .error .IncompleteFrame :=
  ⟨rfl, rfl⟩

/-! ## Decimal-digit and line-scanning lemmas for the codec proofs -/

theorem natDigits_bounds (n : Nat) : ∀ b ∈ natDigits n, 48 ≤ b ∧ b ≤ 57 := by
  induction n using Nat.strong_induction_on with
  | _ n ih =>
    rw [natDigits]
    by_cases h : n < 10
    · rw [dif_pos h]
      intro b hb
      simp only [List.mem_singleton] at hb
      omega
    · rw [dif_neg h]
      intro b hb
      rcases List.mem_append.mp hb with hb | hb
      · exact ih (n / 10) (Nat.div_lt_self (by omega) (by omega)) b hb
      · simp only [List.mem_singleton] at hb
        have := Nat.mod_lt n (y := 10) (by omega)
        omega

theorem natDigits_ne_nil (n : Nat) : natDigits n ≠ [] := by
  rw [natDigits]
  by_cases h : n < 10
  · rw [dif_pos h]
    exact List.cons_ne_nil _ _
  · rw [dif_neg h]
    simp [natDigits_ne_nil (n / 10)]
decreasing_by exact Nat.div_lt_self (by omega) (by omega)

theorem digitsAux_append (xs ys : List Nat) (acc : Nat) :
    digitsAux (xs ++ ys) acc =
      match digitsAux xs acc with
      | some a => digitsAux ys a
      | none => none := by
  induction xs generalizing acc with
  | nil => rfl
  | cons b rest ih =>
    simp only [List.cons_append, digitsAux]
    by_cases hb : isDigitB b
    · rw [if_pos hb, if_pos hb]
      exact ih _
    · rw [if_neg hb, if_neg hb]

theorem digitsAux_natDigits (n : Nat) :
    ∀ acc, digitsAux (natDigits n) acc =
      some (acc * 10 ^ (natDigits n).length + n) := by
  induction n using Nat.strong_induction_on with
  | _ n ih =>
    intro acc
    rw [natDigits]
    by_cases h : n < 10
    · rw [dif_pos h]
      rw [digitsAux, if_pos (by simp [isDigitB]; omega), digitsAux]
      simp only [List.length_singleton, pow_one, Option.some.injEq]
      omega
    · rw [dif_neg h, digitsAux_append,
        ih (n / 10) (Nat.div_lt_self (by omega) (by omega))]
      have hm : n % 10 < 10 := Nat.mod_lt n (by omega)
      show digitsAux [48 + n % 10] _ = _
      rw [digitsAux, if_pos (by simp [isDigitB]; omega), digitsAux]
      simp only [List.length_append, List.length_singleton, Option.some.injEq]
      have hdm := Nat.div_add_mod n 10
      rw [pow_succ]
      ring_nf
      omega

theorem digitsVal_natDigits (n : Nat) : digitsVal (natDigits n) = some n := by
  rw [digitsVal, if_neg (by simp [List.isEmpty_iff, natDigits_ne_nil]),
    digitsAux_natDigits]
  simp

theorem atoiCore_natDigits (n : Nat) :
    atoiCore (natDigits n) = some ((n : Int)) := by
  obtain ⟨d₀, dt, hds⟩ := List.exists_cons_of_ne_nil (natDigits_ne_nil n)
  have hb := natDigits_bounds n d₀ (hds ▸ List.mem_cons_self _ _)
  have h₁ : atoiCore (natDigits n) = (digitsVal (natDigits n)).map Int.ofNat := by
    rw [hds, atoiCore, if_neg (by omega), if_neg (by omega)]
  have h₂ : (digitsVal (natDigits n)).map Int.ofNat = some ((n : Int)) := by
    rw [digitsVal_natDigits]
    rfl
  exact h₁.trans h₂

theorem atoiU64_natDigits (n : Nat) (h : n < 2 ^ 64) :
    atoiU64 (natDigits n) = some n := by
  have h64 : ((n : Int)) < 2 ^ 64 := by exact_mod_cast h
  rw [atoiU64, atoiCore_natDigits, Option.some_bind,
    if_pos ⟨Int.natCast_nonneg n, h64⟩, Int.toNat_natCast]

/-- `get_line`'s scan finds the first CRLF right after a CR-free segment. -/
theorem findCRLF_append (ds : List Nat) (hds : ∀ b ∈ ds, b ≠ 13) :
    ∀ (pre rest : List Nat) (cnt : Nat), ds.length < cnt →
    findCRLF (pre ++ ds ++ 13 :: 10 :: rest) cnt pre.length =
      some (pre.length + ds.length) := by
  induction ds with
  | nil =>
    intro pre rest cnt hcnt
    obtain ⟨c, rfl⟩ : ∃ c, cnt = c + 1 := ⟨cnt - 1, by omega⟩
    rw [findCRLF]
    have h13 : (pre ++ [] ++ 13 :: 10 :: rest).getD pre.length 0 = 13 := by
      rw [List.append_nil, List.getD_append_right pre _ _ _ le_rfl]
      simp
    have h10 : (pre ++ [] ++ 13 :: 10 :: rest).getD (pre.length + 1) 0 = 10 := by
      rw [List.append_nil, List.getD_append_right pre _ _ _ (by omega)]
      simp
    rw [if_pos ⟨h13, h10⟩]
    simp
  | cons d dt ih =>
    intro pre rest cnt hcnt
    obtain ⟨c, rfl⟩ : ∃ c, cnt = c + 1 := ⟨cnt - 1, by omega⟩
    rw [findCRLF]
    have hd : (pre ++ (d :: dt) ++ 13 :: 10 :: rest).getD pre.length 0 = d := by
      rw [List.append_assoc, List.getD_append_right pre _ _ _ le_rfl]
      simp
    rw [if_neg (fun hc => hds d (List.mem_cons_self _ _) (by
      rw [hd] at hc
      exact hc.1))]
    have hrec := ih (fun b hb => hds b (List.mem_cons_of_mem _ hb))
      (pre ++ [d]) rest c (by simp only [List.length_cons] at hcnt; omega)
    have hform : (pre ++ [d]) ++ dt ++ 13 :: 10 :: rest =
        pre ++ (d :: dt) ++ 13 :: 10 :: rest := by
      simp [List.append_assoc]
    have hlen : (pre ++ [d]).length = pre.length + 1 := by simp
    rw [hform, hlen] at hrec
    rw [hrec]
    congr 1
    simp only [List.length_cons]
    omega

/-- `get_line` after a CR-free segment followed by CRLF returns exactly that
segment and advances past the CRLF. -/
theorem getLine_at (pre ds rest : List Nat) (hds : ∀ b ∈ ds, b ≠ 13) :
    getLine (pre ++ ds ++ 13 :: 10 :: rest) pre.length =
      .ok (ds, pre.length + ds.length + 2) := by
  unfold getLine
  have hcnt : ds.length <
      (pre ++ ds ++ 13 :: 10 :: rest).length - 1 - pre.length := by
    simp only [List.length_append, List.length_cons]
    omega
  rw [findCRLF_append ds hds pre rest _ hcnt]
  have hdrop : (pre ++ ds ++ 13 :: 10 :: rest).drop pre.length =
      ds ++ 13 :: 10 :: rest := by
    rw [List.append_assoc, List.drop_left]
  rw [hdrop]
  show Except.ok ((ds ++ 13 :: 10 :: rest).take (pre.length + ds.length - pre.length),
      pre.length + ds.length + 2) = Except.ok (ds, pre.length + ds.length + 2)
  rw [show pre.length + ds.length - pre.length = ds.length by omega, List.take_left]

/-- `Frame::parse` of `$<n>\r\n<payload><b₁><b₂>` at any sufficient fuel:
the bulk branch checks only that `n + 2` bytes remain and skips the last
two without ever comparing them to CRLF. -/
theorem parseL_bulk (payload : List Nat) (b₁ b₂ : Nat) (fuel : Nat)
    (h : payload.length < 2 ^ 64) :
    parseL (36 :: (natDigits payload.length ++ 13 :: 10 :: (payload ++ [b₁, b₂])))
        (fuel + 1) 0 =
      some (.ok (.bulkString payload,
        (36 :: (natDigits payload.length ++ 13 :: 10 :: (payload ++ [b₁, b₂]))).length)) := by
  obtain ⟨d₀, dt, hcons⟩ :=
    List.exists_cons_of_ne_nil (natDigits_ne_nil payload.length)
  have hb₀ := natDigits_bounds payload.length d₀ (hcons ▸ List.mem_cons_self _ _)
  set tl : List Nat := payload ++ [b₁, b₂] with htl
  set s : List Nat := 36 :: (natDigits payload.length ++ 13 :: 10 :: tl) with hs
  have hg : getU8 s 0 = .ok (36, 1) := by
    rw [hs]
    simp [getU8]
  have hpk : peekU8 s 1 = .ok d₀ := by
    rw [hs, hcons]
    simp [peekU8]
  have hne45 : ¬ (d₀ = 45) := by omega
  have hds13 : ∀ b ∈ natDigits payload.length, b ≠ 13 := by
    intro b hb
    have := natDigits_bounds payload.length b hb
    omega
  have hgl : getLine s 1 = .ok (natDigits payload.length,
      (natDigits payload.length).length + 3) := by
    have hgeneric := getLine_at [36] (natDigits payload.length) tl hds13
    simp only [List.singleton_append, List.cons_append, List.length_cons,
      List.length_nil] at hgeneric
    rw [hs]
    rw [show (0 : Nat) + 1 = 1 from rfl] at hgeneric
    rw [show 1 + (natDigits payload.length).length + 2 =
        (natDigits payload.length).length + 3 by omega] at hgeneric
    exact hgeneric
  have hgd : getDecimalUnsigned s 1 = .ok (payload.length,
      (natDigits payload.length).length + 3) := by
    simp only [getDecimalUnsigned, hgl, atoiU64_natDigits payload.length h]
  have hrem : ¬ (s.length - ((natDigits payload.length).length + 3) <
      payload.length + 2) := by
    rw [hs, htl]
    simp only [List.length_cons, List.length_append, List.length_nil]
    omega
  have hdata : (s.drop ((natDigits payload.length).length + 3)).take payload.length
      = payload := by
    rw [hs, htl]
    rw [show (36 :: (natDigits payload.length ++ 13 :: 10 :: (payload ++ [b₁, b₂])))
        = (36 :: natDigits payload.length ++ [13, 10]) ++ (payload ++ [b₁, b₂]) by
      simp]
    rw [show (natDigits payload.length).length + 3 =
        (36 :: natDigits payload.length ++ [13, 10]).length by
      simp only [List.length_cons, List.length_append, List.length_nil]]
    rw [List.drop_left, List.take_left]
  have hskip : skipN s ((natDigits payload.length).length + 3) (payload.length + 2)
      = .ok (s.length) := by
    rw [skipN, if_neg hrem]
    congr 1
    rw [hs, htl]
    simp only [List.length_cons, List.length_append, List.length_nil]
    omega
  rw [parseL]
  rw [hg]
  simp only [hpk, if_neg hne45, hgd, hrem, hdata, hskip]
  norm_num

/-- C10: `Frame::parse` does not validate the terminator after a bulk-string
payload: for every payload (of u64-representable length) and any two
trailing bytes `b₁ b₂`, the input `$<n>\r\n<payload><b₁><b₂>` parses
successfully as `BulkString(payload)`, consuming the whole input, even when
`b₁ b₂` is not CRLF — the `skip(len + 2)` advances blindly. -/
theorem claim10_bulk_terminator_unchecked (payload : List Nat) (b₁ b₂ : Nat)
    (h : payload.length < 2 ^ 64) :
    FrameL.parse (36 :: (natDigits payload.length ++ 13 :: 10 :: (payload ++ [b₁, b₂]))) =
      .ok (.bulkString payload,
        (36 :: (natDigits payload.length ++ 13 :: 10 :: (payload ++ [b₁, b₂]))).length) := by
  set s : List Nat :=
    36 :: (natDigits payload.length ++ 13 :: 10 :: (payload ++ [b₁, b₂])) with hs
  have hb := parseL_bulk payload b₁ b₂ (2 * s.length + 3) h
  rw [← hs] at hb
  have hb₂ : parseL s (2 * s.length + 4) 0 =
      some (.ok (.bulkString payload, s.length)) := hb
  unfold FrameL.parse
  rw [hb₂]
  rfl

/-- Witness for C10 with payload `"ab"` and non-CRLF trailer `"XY"`. -/
theorem claim10_witness :
    FrameL.parse (36 :: (natDigits 2 ++ 13 :: 10 :: ([97, 98] ++ [88, 89]))) =
      .ok (.bulkString [97, 98],
        (36 :: (natDigits 2 ++ 13 :: 10 :: ([97, 98] ++ [88, 89]))).length) :=
  claim10_bulk_terminator_unchecked [97, 98] 88 89 (by norm_num)

/-! ## Cursor-position agreement of `check` and `parse` -/

theorem findCRLF_bounds (s : List Nat) :
    ∀ cnt i j, findCRLF s cnt i = some j → i ≤ j ∧ j < i + cnt := by
  intro cnt
  induction cnt with
  | zero =>
    intro i j h
    exact absurd h (by simp [findCRLF])
  | succ c ih =>
    intro i j h
    rw [findCRLF] at h
    by_cases hc : s.getD i 0 = 13 ∧ s.getD (i + 1) 0 = 10
    · rw [if_pos hc] at h
      obtain rfl := Option.some.inj h
      omega
    · rw [if_neg hc] at h
      obtain ⟨h₁, h₂⟩ := ih (i + 1) j h
      omega

/-- A successful `get_line` advances the cursor exactly past the line and its
CRLF. -/
theorem getLine_ok_pos {s : List Nat} {pos : Nat} {line : List Nat} {r : Nat}
    (h : getLine s pos = .ok (line, r)) : r = pos + line.length + 2 := by
  unfold getLine at h
  cases hf : findCRLF s (s.length - 1 - pos) pos with
  | none => rw [hf] at h; exact Except.noConfusion h
  | some j =>
    rw [hf] at h
    obtain ⟨hline, hr⟩ : (s.drop pos).take (j - pos) = line ∧ j + 2 = r := by
      injection h with h₁
      injection h₁ with h₂ h₃
      exact ⟨h₂, h₃⟩
    obtain ⟨hj₁, hj₂⟩ := findCRLF_bounds s _ pos j hf
    have hlen : line.length = j - pos := by
      rw [← hline, List.length_take, List.length_drop]
      omega
    omega

/-- A successful signed and a successful unsigned `atoi` of the same line
agree on the value. -/
theorem atoi_agree {line : List Nat} {v : Int} {u : Nat}
    (hv : atoiI64 line = some v) (hu : atoiU64 line = some u) :
    ((u : Int)) = v := by
  unfold atoiI64 at hv
  unfold atoiU64 at hu
  cases hco : atoiCore line with
  | none => rw [hco] at hv; exact Option.noConfusion hv
  | some w =>
    rw [hco, Option.some_bind] at hv hu
    by_cases hbv : -(2 ^ 63) ≤ w ∧ w < 2 ^ 63
    · rw [if_pos hbv] at hv
      obtain rfl := Option.some.inj hv
      by_cases hbu : (0 : Int) ≤ w ∧ w < 2 ^ 64
      · rw [if_pos hbu] at hu
        obtain rfl := Option.some.inj hu
        exact Int.toNat_of_nonneg hbu.1
      · rw [if_neg hbu] at hu
        exact Option.noConfusion hu
    · rw [if_neg hbv] at hv
      exact Option.noConfusion hv

/-- A successful signed and a successful unsigned decimal read at the same
cursor agree on the value and the final position. -/
theorem decimals_agree {s : List Nat} {p : Nat} {v : Int} {r : Nat} {u r₂ : Nat}
    (hv : getDecimalSigned s p = .ok (v, r))
    (hu : getDecimalUnsigned s p = .ok (u, r₂)) :
    r₂ = r ∧ ((u : Int)) = v := by
  unfold getDecimalSigned at hv
  unfold getDecimalUnsigned at hu
  cases hgl : getLine s p with
  | error e =>
    rw [hgl] at hv
    exact Except.noConfusion hv
  | ok lp =>
    obtain ⟨line, r₀⟩ := lp
    simp only [hgl] at hv hu
    cases hvi : atoiI64 line with
    | none =>
      simp only [hvi] at hv
      exact Except.noConfusion hv
    | some v₀ =>
      cases hui : atoiU64 line with
      | none =>
        simp only [hui] at hu
        exact Except.noConfusion hu
      | some u₀ =>
        simp only [hvi, Except.ok.injEq, Prod.mk.injEq] at hv
        simp only [hui, Except.ok.injEq, Prod.mk.injEq] at hu
        obtain ⟨rfl, rfl⟩ := hv
        obtain ⟨rfl, rfl⟩ := hu
        exact ⟨rfl, atoi_agree hvi hui⟩

theorem some_ok_inj {α : Type} {x y : α}
    (h : (some (Except.ok x) : Option (Except ErrorL α)) = some (.ok y)) :
    x = y :=
  Except.ok.inj (Option.some.inj h)

theorem some_err_ok {α : Type} {e : ErrorL} {y : α}
    (h : (some (Except.error e) : Option (Except ErrorL α)) = some (.ok y)) :
    False := by
  injection h with h₁
  exact Except.noConfusion h₁

theorem skipN_ok {s : List Nat} {pos n r : Nat} (h : skipN s pos n = .ok r) :
    r = pos + n := by
  unfold skipN at h
  by_cases hr : s.length - pos < n
  · rw [if_pos hr] at h
    exact Except.noConfusion h
  · rw [if_neg hr] at h
    injection h with h₁
    exact h₁.symm

/-- Joint position agreement: whenever `Frame::check` succeeds at position
`n` and `Frame::parse` (at any fuel) succeeds with final position `q` on
the same bytes and start position, `q = n`; likewise for the array-element
loops. -/
theorem posAgreeAll (fp : Nat) :
    (∀ (s : List Nat) (pos : Nat) (fc n : Nat) (f : FrameL) (q : Nat),
      checkL s fc pos = some (.ok n) →
      parseL s fp pos = some (.ok (f, q)) → q = n) ∧
    (∀ (s : List Nat) (cnt pos : Nat) (fc n : Nat) (fs : List FrameL) (q : Nat),
      checkManyL s fc cnt pos = some (.ok n) →
      parseManyL s fp cnt pos = some (.ok (fs, q)) → q = n) := by
  induction fp using Nat.strong_induction_on with
  | _ fp ih =>
    constructor
    · intro s pos fc n f q hc hp
      cases fp with
      | zero => simp [parseL] at hp
      | succ k =>
        cases fc with
        | zero => simp [checkL] at hc
        | succ m =>
          simp only [parseL] at hp
          simp only [checkL] at hc
          cases hgu : getU8 s pos with
          | error e =>
            simp only [hgu] at hp
            exact (some_err_ok hp).elim
          | ok bp =>
            obtain ⟨b, pos₁⟩ := bp
            simp only [hgu] at hp hc
            by_cases hb43 : b = 43
            · rw [if_pos hb43] at hp
              rw [if_pos (Or.inl hb43)] at hc
              cases hgl : getLine s pos₁ with
              | error e =>
                simp only [hgl] at hp
                exact (some_err_ok hp).elim
              | ok lp =>
                obtain ⟨line, pos₂⟩ := lp
                simp only [hgl] at hp hc
                have hn : pos₂ = n := some_ok_inj hc
                by_cases huv : utf8Valid line
                · rw [if_pos huv] at hp
                  have := some_ok_inj hp
                  rw [← hn]
                  exact (congrArg Prod.snd this).symm
                · rw [if_neg huv] at hp
                  exact (some_err_ok hp).elim
            · rw [if_neg hb43] at hp
              by_cases hb45 : b = 45
              · rw [if_pos hb45] at hp
                rw [if_pos (Or.inr hb45)] at hc
                cases hgl : getLine s pos₁ with
                | error e =>
                  simp only [hgl] at hp
                  exact (some_err_ok hp).elim
                | ok lp =>
                  obtain ⟨line, pos₂⟩ := lp
                  simp only [hgl] at hp hc
                  have hn : pos₂ = n := some_ok_inj hc
                  by_cases huv : utf8Valid line
                  · rw [if_pos huv] at hp
                    have := some_ok_inj hp
                    rw [← hn]
                    exact (congrArg Prod.snd this).symm
                  · rw [if_neg huv] at hp
                    exact (some_err_ok hp).elim
              · rw [if_neg hb45] at hp
                rw [if_neg (by tauto)] at hc
                by_cases hb58 : b = 58
                · rw [if_pos hb58] at hp hc
                  cases hgd : getDecimalSigned s pos₁ with
                  | error e =>
                    simp only [hgd] at hp
                    exact (some_err_ok hp).elim
                  | ok vp =>
                    obtain ⟨v, pos₂⟩ := vp
                    simp only [hgd] at hp hc
                    have hn : pos₂ = n := some_ok_inj hc
                    have := some_ok_inj hp
                    rw [← hn]
                    exact (congrArg Prod.snd this).symm
                · rw [if_neg hb58] at hp hc
                  by_cases hb36 : b = 36
                  · rw [if_pos hb36] at hp hc
                    cases hpk : peekU8 s pos₁ with
                    | error e =>
                      simp only [hpk] at hp
                      exact (some_err_ok hp).elim
                    | ok b₂ =>
                      simp only [hpk] at hp hc
                      by_cases hb₂ : b₂ = 45
                      · rw [if_pos hb₂] at hp hc
                        cases hsk : skipN s pos₁ 4 with
                        | error e =>
                          simp only [hsk] at hc
                          exact (some_err_ok hc).elim
                        | ok pos₂ =>
                          simp only [hsk] at hc
                          have hn : pos₂ = n := some_ok_inj hc
                          have hsk' : pos₂ = pos₁ + 4 := skipN_ok hsk
                          cases hgl : getLine s pos₁ with
                          | error e =>
                            simp only [hgl] at hp
                            exact (some_err_ok hp).elim
                          | ok lp =>
                            obtain ⟨line, r⟩ := lp
                            simp only [hgl] at hp
                            by_cases hl : line = [45, 49]
                            · rw [if_pos hl] at hp
                              have hq : q = r :=
                                (congrArg Prod.snd (some_ok_inj hp)).symm
                              have hr := getLine_ok_pos hgl
                              subst hl
                              simp only [List.length_cons, List.length_nil] at hr
                              omega
                            · rw [if_neg hl] at hp
                              exact (some_err_ok hp).elim
                      · rw [if_neg hb₂] at hp hc
                        cases hgds : getDecimalSigned s pos₁ with
                        | error e =>
                          simp only [hgds] at hc
                          exact (some_err_ok hc).elim
                        | ok vp =>
                          obtain ⟨v, pos₂⟩ := vp
                          simp only [hgds] at hc
                          by_cases hvneg : v < 0
                          · rw [if_pos hvneg] at hc
                            exact (some_err_ok hc).elim
                          · rw [if_neg hvneg] at hc
                            cases hsk : skipN s pos₂ (v.toNat + 2) with
                            | error e =>
                              simp only [hsk] at hc
                              exact (some_err_ok hc).elim
                            | ok pos₃ =>
                              simp only [hsk] at hc
                              have hn : pos₃ = n := some_ok_inj hc
                              have hsk' : pos₃ = pos₂ + (v.toNat + 2) := skipN_ok hsk
                              cases hgdu : getDecimalUnsigned s pos₁ with
                              | error e =>
                                simp only [hgdu] at hp
                                exact (some_err_ok hp).elim
                              | ok up =>
                                obtain ⟨u, pos₄⟩ := up
                                simp only [hgdu] at hp
                                obtain ⟨hpos, hval⟩ := decimals_agree hgds hgdu
                                by_cases hrem : s.length - pos₄ < u + 2
                                · rw [if_pos hrem] at hp
                                  exact (some_err_ok hp).elim
                                · rw [if_neg hrem] at hp
                                  cases hsk₂ : skipN s pos₄ (u + 2) with
                                  | error e =>
                                    simp only [hsk₂] at hp
                                    exact (some_err_ok hp).elim
                                  | ok pos₅ =>
                                    simp only [hsk₂] at hp
                                    have hq : q = pos₅ :=
                                      (congrArg Prod.snd (some_ok_inj hp)).symm
                                    have hsk₂' : pos₅ = pos₄ + (u + 2) := skipN_ok hsk₂
                                    omega
                  · rw [if_neg hb36] at hp hc
                    by_cases hb42 : b = 42
                    · rw [if_pos hb42] at hp hc
                      cases hgds : getDecimalSigned s pos₁ with
                      | error e =>
                        simp only [hgds] at hp
                        exact (some_err_ok hp).elim
                      | ok vp =>
                        obtain ⟨v, pos₂⟩ := vp
                        simp only [hgds] at hp hc
                        by_cases hv1 : v = -1
                        · rw [if_pos hv1] at hp
                          have hq : q = pos₂ :=
                            (congrArg Prod.snd (some_ok_inj hp)).symm
                          subst hv1
                          rw [show ((-1 : Int)).toNat = 0 from rfl] at hc
                          cases m with
                          | zero => simp [checkManyL] at hc
                          | succ m₂ =>
                            simp only [checkManyL] at hc
                            have hn : pos₂ = n := some_ok_inj hc
                            omega
                        · rw [if_neg hv1] at hp
                          by_cases hvneg : v < 0
                          · rw [if_pos hvneg] at hp
                            exact (some_err_ok hp).elim
                          · rw [if_neg hvneg] at hp
                            cases hpm : parseManyL s k v.toNat pos₂ with
                            | none =>
                              simp only [hpm] at hp
                              exact Option.noConfusion hp
                            | some r₂ =>
                              cases r₂ with
                              | error e =>
                                simp only [hpm] at hp
                                exact (some_err_ok hp).elim
                              | ok sq =>
                                obtain ⟨fs₂, q₂⟩ := sq
                                simp only [hpm] at hp
                                have hq : q = q₂ :=
                                  (congrArg Prod.snd (some_ok_inj hp)).symm
                                have := (ih k (by omega)).2 s v.toNat pos₂ m n
                                  fs₂ q₂ hc hpm
                                omega
                    · rw [if_neg hb42] at hp hc
                      by_cases hb95 : b = 95
                      · rw [if_pos hb95] at hp hc
                        cases hgl : getLine s pos₁ with
                        | error e =>
                          simp only [hgl] at hp
                          exact (some_err_ok hp).elim
                        | ok lp =>
                          obtain ⟨line, pos₂⟩ := lp
                          simp only [hgl] at hp hc
                          by_cases hl : line = []
                          · rw [if_pos hl] at hp hc
                            have hn : pos₂ = n := some_ok_inj hc
                            have hq : q = pos₂ :=
                              (congrArg Prod.snd (some_ok_inj hp)).symm
                            omega
                          · rw [if_neg hl] at hp
                            exact (some_err_ok hp).elim
                      · rw [if_neg hb95] at hp
                        exact (some_err_ok hp).elim
    · intro s cnt pos fc n fs q hc hp
      cases fp with
      | zero => simp [parseManyL] at hp
      | succ k =>
        cases cnt with
        | zero =>
          simp only [parseManyL] at hp
          have hq : q = pos :=
            (congrArg Prod.snd (some_ok_inj hp)).symm
          cases fc with
          | zero => simp [checkManyL] at hc
          | succ m =>
            simp only [checkManyL] at hc
            have hn : pos = n := some_ok_inj hc
            omega
        | succ c =>
          cases fc with
          | zero => simp [checkManyL] at hc
          | succ m =>
            simp only [parseManyL] at hp
            simp only [checkManyL] at hc
            cases hcl : checkL s m pos with
            | none =>
              simp only [hcl] at hc
              exact Option.noConfusion hc
            | some cres =>
              cases cres with
              | error e =>
                simp only [hcl] at hc
                exact (some_err_ok hc).elim
              | ok pos₁ =>
                simp only [hcl] at hc
                cases hpl : parseL s k pos with
                | none =>
                  simp only [hpl] at hp
                  exact Option.noConfusion hp
                | some pres =>
                  cases pres with
                  | error e =>
                    simp only [hpl] at hp
                    exact (some_err_ok hp).elim
                  | ok fp₁ =>
                    obtain ⟨f₁, p₁⟩ := fp₁
                    simp only [hpl] at hp
                    have hpp : p₁ = pos₁ :=
                      (ih k (by omega)).1 s pos m pos₁ f₁ p₁ hcl hpl
                    subst hpp
                    cases hpm : parseManyL s k c p₁ with
                    | none =>
                      simp only [hpm] at hp
                      exact Option.noConfusion hp
                    | some r₂ =>
                      cases r₂ with
                      | error e =>
                        simp only [hpm] at hp
                        exact (some_err_ok hp).elim
                      | ok sq =>
                        obtain ⟨fs₂, q₂⟩ := sq
                        simp only [hpm] at hp
                        have hq : q = q₂ :=
                          (congrArg Prod.snd (some_ok_inj hp)).symm
                        have := (ih k (by omega)).2 s c p₁ m n fs₂ q₂ hc hpm
                        omega

/-- C9, amended: for every byte sequence on which `Frame::check` succeeds at
final position `n`, whenever `Frame::parse` on the same bytes also
succeeds, it leaves the cursor at the same final position — so
`Connection::parse_frame`'s `advance(len)` by check's position discards
exactly the parsed frame.  (check success does not rule out parse
reporting `IncompleteFrame`; see the counterexample.) -/
theorem claim9_positions (s : List Nat) (n : Nat) (f : FrameL) (q : Nat)
    (hc : FrameL.check s = .ok n) (hp : FrameL.parse s = .ok (f, q)) : q = n := by
  unfold FrameL.check at hc
  unfold FrameL.parse at hp
  have hc₂ : checkL s (2 * s.length + 4) 0 = some (.ok n) := by
    cases h : checkL s (2 * s.length + 4) 0 with
    | none =>
      rw [h] at hc
      simp only [Option.getD_none] at hc
      exact Except.noConfusion hc
    | some r =>
      rw [h] at hc
      simp only [Option.getD_some] at hc
      rw [hc]
  have hp₂ : parseL s (2 * s.length + 4) 0 = some (.ok (f, q)) := by
    cases h : parseL s (2 * s.length + 4) 0 with
    | none =>
      rw [h] at hp
      simp only [Option.getD_none] at hp
      exact Except.noConfusion hp
    | some r =>
      rw [h] at hp
      simp only [Option.getD_some] at hp
      rw [hp]
  exact (posAgreeAll (2 * s.length + 4)).1 s 0 (2 * s.length + 4) n f q hc₂ hp₂

/-- Witness for the amended C9: on `"+OK\r\n"`, check and parse both finish
at position 5. -/
theorem claim9_witness :
    FrameL.check (strB "+OK\r\n") = .ok 5 ∧
    FrameL.parse (strB "+OK\r\n") = .ok (.simpleString (strB "OK"), 5) ∧
    (5 : Nat) = 5 :=
  ⟨rfl, rfl,
    claim9_positions (strB "+OK\r\n") 5 (.simpleString (strB "OK")) 5 rfl rfl⟩

/-! ## C8: prefix behaviour of `check` and `read_frame`'s buffering -/

/-- `findCRLF` returns the position of a CRLF, and the first one in its scan
range. -/
theorem findCRLF_some_spec (s : List Nat) :
    ∀ cnt i j, findCRLF s cnt i = some j →
      (s.getD j 0 = 13 ∧ s.getD (j + 1) 0 = 10) ∧
      ∀ t, i ≤ t → t < j → ¬(s.getD t 0 = 13 ∧ s.getD (t + 1) 0 = 10) := by
  intro cnt
  induction cnt with
  | zero =>
    intro i j h
    exact absurd h (by simp [findCRLF])
  | succ c ih =>
    intro i j h
    rw [findCRLF] at h
    by_cases hc : s.getD i 0 = 13 ∧ s.getD (i + 1) 0 = 10
    · rw [if_pos hc] at h
      obtain rfl := Option.some.inj h
      exact ⟨hc, fun t h₁ h₂ _ => absurd h₂ (by omega)⟩
    · rw [if_neg hc] at h
      obtain ⟨h₁, h₂⟩ := ih (i + 1) j h
      refine ⟨h₁, fun t ht₁ ht₂ hcrlf => ?_⟩
      rcases Nat.lt_or_ge t (i + 1) with hti | hti
      · have : t = i := by omega
        rw [this] at hcrlf
        exact hc hcrlf
      · exact h₂ t hti ht₂ hcrlf

/-- Converse: the first CRLF position inside the scan range is what `findCRLF`
returns. -/
theorem findCRLF_of_first (s : List Nat) :
    ∀ cnt i j, i ≤ j → j < i + cnt →
      s.getD j 0 = 13 → s.getD (j + 1) 0 = 10 →
      (∀ t, i ≤ t → t < j → ¬(s.getD t 0 = 13 ∧ s.getD (t + 1) 0 = 10)) →
      findCRLF s cnt i = some j := by
  intro cnt
  induction cnt with
  | zero =>
    intro i j h₁ h₂ _ _ _
    exact absurd h₂ (by omega)
  | succ c ih =>
    intro i j h₁ h₂ h₃ h₄ h₅
    rw [findCRLF]
    rcases Nat.eq_or_lt_of_le h₁ with rfl | hlt
    · rw [if_pos ⟨h₃, h₄⟩]
    · rw [if_neg (h₅ i (Nat.le_refl i) hlt)]
      exact ih (i + 1) j hlt (by omega) h₃ h₄ (fun t ht₁ ht₂ => h₅ t (by omega) ht₂)

/-- If no CRLF occurs in the scan range, `findCRLF` returns `none`. -/
theorem findCRLF_of_none (s : List Nat) :
    ∀ cnt i, (∀ t, i ≤ t → t < i + cnt → ¬(s.getD t 0 = 13 ∧ s.getD (t + 1) 0 = 10)) →
      findCRLF s cnt i = none := by
  intro cnt
  induction cnt with
  | zero => intro i _; rfl
  | succ c ih =>
    intro i h
    rw [findCRLF, if_neg (h i (Nat.le_refl i) (by omega))]
    exact ih (i + 1) (fun t ht₁ ht₂ => h t (by omega) (by omega))

/-- A `get_line` that succeeds on `s ++ rest` behaves on the prefix `s`
according to whether the line (with its CRLF) lies inside `s`: same result
when it does, `IncompleteFrame` when it does not. -/
theorem getLine_pref {s rest : List Nat} {pos : Nat} {line : List Nat} {r : Nat}
    (h : getLine (s ++ rest) pos = .ok (line, r)) :
    (r ≤ s.length → getLine s pos = .ok (line, r)) ∧
    (s.length < r → getLine s pos = .error .IncompleteFrame) := by
  unfold getLine at h
  cases hf : findCRLF (s ++ rest) ((s ++ rest).length - 1 - pos) pos with
  | none => rw [hf] at h; exact Except.noConfusion h
  | some j =>
    rw [hf] at h
    obtain ⟨hline, hr⟩ : ((s ++ rest).drop pos).take (j - pos) = line ∧ j + 2 = r := by
      injection h with h₁
      injection h₁ with h₂ h₃
      exact ⟨h₂, h₃⟩
    obtain ⟨hj₁, hj₂⟩ := findCRLF_bounds (s ++ rest) _ pos j hf
    obtain ⟨hcrlf, hmin⟩ := findCRLF_some_spec (s ++ rest) _ pos j hf
    constructor
    · intro hrs
      have hjs : j + 2 ≤ s.length := by omega
      have hj : findCRLF s (s.length - 1 - pos) pos = some j := by
        refine findCRLF_of_first s (s.length - 1 - pos) pos j hj₁ (by omega) ?_ ?_ ?_
        · rw [← List.getD_append s rest 0 j (by omega)]
          exact hcrlf.1
        · rw [← List.getD_append s rest 0 (j + 1) (by omega)]
          exact hcrlf.2
        · intro t ht₁ ht₂ hct
          exact hmin t ht₁ ht₂
            ⟨by rw [List.getD_append s rest 0 t (by omega)]; exact hct.1,
             by rw [List.getD_append s rest 0 (t + 1) (by omega)]; exact hct.2⟩
      have hdrop : (s ++ rest).drop pos = s.drop pos ++ rest :=
        List.drop_append_of_le_length (by omega)
      rw [hdrop, List.take_append_of_le_length
        (by rw [List.length_drop]; omega)] at hline
      simp only [getLine, hj]
      rw [hline, hr]
    · intro hrs
      have hn : findCRLF s (s.length - 1 - pos) pos = none := by
        apply findCRLF_of_none
        intro t ht₁ ht₂ hct
        have htj : t < j := by omega
        exact hmin t ht₁ htj
          ⟨by rw [List.getD_append s rest 0 t (by omega)]; exact hct.1,
           by rw [List.getD_append s rest 0 (t + 1) (by omega)]; exact hct.2⟩
      simp only [getLine, hn]

/-- Prefix behaviour of `get_decimal_signed`, inherited from `get_line`. -/
theorem getDecimalSigned_pref {s rest : List Nat} {pos : Nat} {v : Int} {r : Nat}
    (h : getDecimalSigned (s ++ rest) pos = .ok (v, r)) :
    (r ≤ s.length → getDecimalSigned s pos = .ok (v, r)) ∧
    (s.length < r → getDecimalSigned s pos = .error .IncompleteFrame) := by
  unfold getDecimalSigned at h
  cases hgl : getLine (s ++ rest) pos with
  | error e => rw [hgl] at h; exact Except.noConfusion h
  | ok lp =>
    obtain ⟨line, r₀⟩ := lp
    rw [hgl] at h
    cases hat : atoiI64 line with
    | none =>
      simp only [hat] at h
      exact Except.noConfusion h
    | some v₀ =>
      simp only [hat, Except.ok.injEq, Prod.mk.injEq] at h
      obtain ⟨rfl, rfl⟩ := h
      obtain ⟨hA, hB⟩ := getLine_pref hgl
      constructor
      · intro hrs
        simp only [getDecimalSigned, hA hrs, hat]
      · intro hrs
        simp only [getDecimalSigned, hB hrs]

/-- A successful signed decimal read strictly advances the cursor. -/
theorem getDecimalSigned_lb {s : List Nat} {pos : Nat} {v : Int} {r : Nat}
    (h : getDecimalSigned s pos = .ok (v, r)) : pos < r := by
  unfold getDecimalSigned at h
  cases hgl : getLine s pos with
  | error e => rw [hgl] at h; exact Except.noConfusion h
  | ok lp =>
    obtain ⟨line, r₀⟩ := lp
    rw [hgl] at h
    cases hat : atoiI64 line with
    | none =>
      simp only [hat] at h
      exact Except.noConfusion h
    | some v₀ =>
      simp only [hat, Except.ok.injEq, Prod.mk.injEq] at h
      obtain ⟨rfl, rfl⟩ := h
      have := getLine_ok_pos hgl
      omega

/-- A successful `get_u8` reads inside the buffer and advances by one. -/
theorem getU8_ok {s : List Nat} {pos b q : Nat} (h : getU8 s pos = .ok (b, q)) :
    pos < s.length ∧ q = pos + 1 := by
  unfold getU8 at h
  by_cases hp : pos < s.length
  · rw [dif_pos hp] at h
    injection h with h₁
    injection h₁ with h₂ h₃
    exact ⟨hp, h₃.symm⟩
  · rw [dif_neg hp] at h
    exact Except.noConfusion h

/-- `get_u8` at a position inside the prefix gives the same result there. -/
theorem getU8_pref {s rest : List Nat} {pos b q : Nat}
    (hp : pos < s.length) (h : getU8 (s ++ rest) pos = .ok (b, q)) :
    getU8 s pos = .ok (b, q) := by
  have hp₂ : pos < (s ++ rest).length := by rw [List.length_append]; omega
  unfold getU8 at h ⊢
  rw [dif_pos hp₂] at h
  rw [dif_pos hp]
  injection h with h₁
  injection h₁ with h₂ h₃
  rw [← h₂, ← h₃, List.get_append pos hp]

/-- `peek_u8` at a position inside the prefix gives the same byte there. -/
theorem peekU8_pref {s rest : List Nat} {pos b : Nat}
    (hp : pos < s.length) (h : peekU8 (s ++ rest) pos = .ok b) :
    peekU8 s pos = .ok b := by
  have hp₂ : pos < (s ++ rest).length := by rw [List.length_append]; omega
  unfold peekU8 at h ⊢
  rw [dif_pos hp₂] at h
  rw [dif_pos hp]
  injection h with h₁
  rw [← h₁, List.get_append pos hp]

/-- A successful `check` step strictly advances the cursor (it begins by
consuming a byte); the element loop never moves it backwards. -/
theorem checkLbAll (fc : Nat) :
    (∀ (s : List Nat) (pos n : Nat), checkL s fc pos = some (.ok n) → pos < n) ∧
    (∀ (s : List Nat) (cnt pos n : Nat),
      checkManyL s fc cnt pos = some (.ok n) → pos ≤ n) := by
  induction fc using Nat.strong_induction_on with
  | _ fc ih =>
    constructor
    · intro s pos n h
      cases fc with
      | zero => simp [checkL] at h
      | succ m =>
        simp only [checkL] at h
        cases hgu : getU8 s pos with
        | error e => simp only [hgu] at h; exact (some_err_ok h).elim
        | ok bp =>
          obtain ⟨b, pos₁⟩ := bp
          obtain ⟨hplt, hp₁⟩ := getU8_ok hgu
          simp only [hgu] at h
          by_cases hb₁ : b = 43 ∨ b = 45
          · rw [if_pos hb₁] at h
            cases hgl : getLine s pos₁ with
            | error e => simp only [hgl] at h; exact (some_err_ok h).elim
            | ok lp =>
              obtain ⟨line, pos₂⟩ := lp
              simp only [hgl] at h
              have h₂ := some_ok_inj h
              have h₃ := getLine_ok_pos hgl
              omega
          · rw [if_neg hb₁] at h
            by_cases hb58 : b = 58
            · rw [if_pos hb58] at h
              cases hgd : getDecimalSigned s pos₁ with
              | error e => simp only [hgd] at h; exact (some_err_ok h).elim
              | ok vp =>
                obtain ⟨v, pos₂⟩ := vp
                simp only [hgd] at h
                have h₂ := some_ok_inj h
                have h₃ := getDecimalSigned_lb hgd
                omega
            · rw [if_neg hb58] at h
              by_cases hb36 : b = 36
              · rw [if_pos hb36] at h
                cases hpk : peekU8 s pos₁ with
                | error e => simp only [hpk] at h; exact (some_err_ok h).elim
                | ok b₂ =>
                  simp only [hpk] at h
                  by_cases hb₂ : b₂ = 45
                  · rw [if_pos hb₂] at h
                    cases hsk : skipN s pos₁ 4 with
                    | error e => simp only [hsk] at h; exact (some_err_ok h).elim
                    | ok pos₂ =>
                      simp only [hsk] at h
                      have h₂ := some_ok_inj h
                      have h₃ := skipN_ok hsk
                      omega
                  · rw [if_neg hb₂] at h
                    cases hgd : getDecimalSigned s pos₁ with
                    | error e => simp only [hgd] at h; exact (some_err_ok h).elim
                    | ok vp =>
                      obtain ⟨v, pos₂⟩ := vp
                      simp only [hgd] at h
                      by_cases hvn : v < 0
                      · rw [if_pos hvn] at h
                        exact (some_err_ok h).elim
                      · rw [if_neg hvn] at h
                        cases hsk : skipN s pos₂ (v.toNat + 2) with
                        | error e => simp only [hsk] at h; exact (some_err_ok h).elim
                        | ok pos₃ =>
                          simp only [hsk] at h
                          have h₂ := some_ok_inj h
                          have h₃ := skipN_ok hsk
                          have h₄ := getDecimalSigned_lb hgd
                          omega
              · rw [if_neg hb36] at h
                by_cases hb42 : b = 42
                · rw [if_pos hb42] at h
                  cases hgd : getDecimalSigned s pos₁ with
                  | error e => simp only [hgd] at h; exact (some_err_ok h).elim
                  | ok vp =>
                    obtain ⟨v, pos₂⟩ := vp
                    simp only [hgd] at h
                    have h₂ := (ih m (by omega)).2 s v.toNat pos₂ n h
                    have h₃ := getDecimalSigned_lb hgd
                    omega
                · rw [if_neg hb42] at h
                  by_cases hb95 : b = 95
                  · rw [if_pos hb95] at h
                    cases hgl : getLine s pos₁ with
                    | error e => simp only [hgl] at h; exact (some_err_ok h).elim
                    | ok lp =>
                      obtain ⟨line, pos₂⟩ := lp
                      simp only [hgl] at h
                      by_cases hl : line = []
                      · rw [if_pos hl] at h
                        have h₂ := some_ok_inj h
                        have h₃ := getLine_ok_pos hgl
                        omega
                      · rw [if_neg hl] at h
                        exact (some_err_ok h).elim
                  · rw [if_neg hb95] at h
                    exact (some_err_ok h).elim
    · intro s cnt pos n h
      cases fc with
      | zero => simp [checkManyL] at h
      | succ m =>
        cases cnt with
        | zero =>
          simp only [checkManyL] at h
          have h₂ := some_ok_inj h
          omega
        | succ c =>
          simp only [checkManyL] at h
          cases hcl : checkL s m pos with
          | none => simp only [hcl] at h; exact Option.noConfusion h
          | some r =>
            cases r with
            | error e => simp only [hcl] at h; exact (some_err_ok h).elim
            | ok pos₁ =>
              simp only [hcl] at h
              have h₁ := (ih m (by omega)).1 s pos pos₁ hcl
              have h₂ := (ih m (by omega)).2 s c pos₁ n h
              omega

/-- Behaviour of `check` on a prefix: whenever `check` succeeds on `s ++ rest`
at final position `n`, running it on `s` alone (at any fuel) either runs out
of fuel or returns exactly the full-input result when the frame fits in `s`
and `IncompleteFrame` when it does not.  Joint statement with the
element-count loop. -/
theorem checkPrefAll (f₂ : Nat) :
    (∀ (s rest : List Nat) (pos fc n : Nat),
      pos ≤ s.length →
      checkL (s ++ rest) fc pos = some (.ok n) →
      checkL s f₂ pos = none ∨
        checkL s f₂ pos =
          (if n ≤ s.length then some (.ok n) else some (.error .IncompleteFrame))) ∧
    (∀ (s rest : List Nat) (cnt pos fc n : Nat),
      pos ≤ s.length →
      checkManyL (s ++ rest) fc cnt pos = some (.ok n) →
      checkManyL s f₂ cnt pos = none ∨
        checkManyL s f₂ cnt pos =
          (if n ≤ s.length then some (.ok n) else some (.error .IncompleteFrame))) := by
  induction f₂ using Nat.strong_induction_on with
  | _ f₂ ih =>
    constructor
    · intro s rest pos fc n hps hc
      cases f₂ with
      | zero => exact Or.inl rfl
      | succ k =>
        cases fc with
        | zero => simp [checkL] at hc
        | succ m =>
          have hc₀ := hc
          simp only [checkL] at hc
          cases hgu : getU8 (s ++ rest) pos with
          | error e => simp only [hgu] at hc; exact (some_err_ok hc).elim
          | ok bp =>
            obtain ⟨b, pos₁⟩ := bp
            obtain ⟨hplt, hp₁⟩ := getU8_ok hgu
            simp only [hgu] at hc
            by_cases hpos : pos < s.length
            · have hgu_s : getU8 s pos = .ok (b, pos₁) := getU8_pref hpos hgu
              by_cases hb₁ : b = 43 ∨ b = 45
              · rw [if_pos hb₁] at hc
                cases hgl : getLine (s ++ rest) pos₁ with
                | error e => simp only [hgl] at hc; exact (some_err_ok hc).elim
                | ok lp =>
                  obtain ⟨line, pos₂⟩ := lp
                  simp only [hgl] at hc
                  have hn := some_ok_inj hc
                  obtain ⟨hA, hB⟩ := getLine_pref hgl
                  by_cases hns : n ≤ s.length
                  · have hred : checkL s (k + 1) pos = some (.ok pos₂) := by
                      simp only [checkL, hgu_s, if_pos hb₁, hA (by omega)]
                    right
                    rw [hred, if_pos hns, hn]
                  · have hred : checkL s (k + 1) pos =
                        some (.error .IncompleteFrame) := by
                      simp only [checkL, hgu_s, if_pos hb₁, hB (by omega)]
                    right
                    rw [hred, if_neg hns]
              · rw [if_neg hb₁] at hc
                by_cases hb58 : b = 58
                · rw [if_pos hb58] at hc
                  cases hgd : getDecimalSigned (s ++ rest) pos₁ with
                  | error e => simp only [hgd] at hc; exact (some_err_ok hc).elim
                  | ok vp =>
                    obtain ⟨v, pos₂⟩ := vp
                    simp only [hgd] at hc
                    have hn := some_ok_inj hc
                    obtain ⟨hA, hB⟩ := getDecimalSigned_pref hgd
                    by_cases hns : n ≤ s.length
                    · have hred : checkL s (k + 1) pos = some (.ok pos₂) := by
                        simp only [checkL, hgu_s]
                        rw [if_neg hb₁, if_pos hb58]
                        simp only [hA (by omega)]
                      right
                      rw [hred, if_pos hns, hn]
                    · have hred : checkL s (k + 1) pos =
                          some (.error .IncompleteFrame) := by
                        simp only [checkL, hgu_s]
                        rw [if_neg hb₁, if_pos hb58]
                        simp only [hB (by omega)]
                      right
                      rw [hred, if_neg hns]
                · rw [if_neg hb58] at hc
                  by_cases hb36 : b = 36
                  · rw [if_pos hb36] at hc
                    cases hpk : peekU8 (s ++ rest) pos₁ with
                    | error e => simp only [hpk] at hc; exact (some_err_ok hc).elim
                    | ok b₂ =>
                      simp only [hpk] at hc
                      by_cases hpos₁ : pos₁ < s.length
                      · have hpk_s : peekU8 s pos₁ = .ok b₂ := peekU8_pref hpos₁ hpk
                        by_cases hb₂ : b₂ = 45
                        · rw [if_pos hb₂] at hc
                          cases hsk : skipN (s ++ rest) pos₁ 4 with
                          | error e =>
                            simp only [hsk] at hc
                            exact (some_err_ok hc).elim
                          | ok pos₂ =>
                            simp only [hsk] at hc
                            have hn := some_ok_inj hc
                            have hsk' := skipN_ok hsk
                            by_cases hns : n ≤ s.length
                            · have hsk_s : skipN s pos₁ 4 = .ok (pos₁ + 4) := by
                                unfold skipN
                                rw [if_neg (by omega)]
                              have hred : checkL s (k + 1) pos =
                                  some (.ok (pos₁ + 4)) := by
                                simp only [checkL, hgu_s]
                                rw [if_neg hb₁, if_neg hb58, if_pos hb36]
                                simp only [hpk_s]
                                rw [if_pos hb₂]
                                simp only [hsk_s]
                              right
                              rw [hred, if_pos hns]
                              simp only [Option.some.injEq, Except.ok.injEq]
                              omega
                            · have hsk_s : skipN s pos₁ 4 =
                                  .error .IncompleteFrame := by
                                unfold skipN
                                rw [if_pos (by omega)]
                              have hred : checkL s (k + 1) pos =
                                  some (.error .IncompleteFrame) := by
                                simp only [checkL, hgu_s]
                                rw [if_neg hb₁, if_neg hb58, if_pos hb36]
                                simp only [hpk_s]
                                rw [if_pos hb₂]
                                simp only [hsk_s]
                              right
                              rw [hred, if_neg hns]
                        · rw [if_neg hb₂] at hc
                          cases hgd : getDecimalSigned (s ++ rest) pos₁ with
                          | error e =>
                            simp only [hgd] at hc
                            exact (some_err_ok hc).elim
                          | ok vp =>
                            obtain ⟨v, pos₂⟩ := vp
                            simp only [hgd] at hc
                            by_cases hvn : v < 0
                            · rw [if_pos hvn] at hc
                              exact (some_err_ok hc).elim
                            · rw [if_neg hvn] at hc
                              cases hsk : skipN (s ++ rest) pos₂ (v.toNat + 2) with
                              | error e =>
                                simp only [hsk] at hc
                                exact (some_err_ok hc).elim
                              | ok pos₃ =>
                                simp only [hsk] at hc
                                have hn := some_ok_inj hc
                                have hsk' := skipN_ok hsk
                                have hlb₂ := getDecimalSigned_lb hgd
                                obtain ⟨hA, hB⟩ := getDecimalSigned_pref hgd
                                by_cases hp2s : pos₂ ≤ s.length
                                · have hgd_s := hA hp2s
                                  by_cases hns : n ≤ s.length
                                  · have hsk_s : skipN s pos₂ (v.toNat + 2) =
                                        .ok (pos₂ + (v.toNat + 2)) := by
                                      unfold skipN
                                      rw [if_neg (by omega)]
                                    have hred : checkL s (k + 1) pos =
                                        some (.ok (pos₂ + (v.toNat + 2))) := by
                                      simp only [checkL, hgu_s]
                                      rw [if_neg hb₁, if_neg hb58, if_pos hb36]
                                      simp only [hpk_s]
                                      rw [if_neg hb₂]
                                      simp only [hgd_s]
                                      rw [if_neg hvn]
                                      simp only [hsk_s]
                                    right
                                    rw [hred, if_pos hns]
                                    simp only [Option.some.injEq, Except.ok.injEq]
                                    omega
                                  · have hsk_s : skipN s pos₂ (v.toNat + 2) =
                                        .error .IncompleteFrame := by
                                      unfold skipN
                                      rw [if_pos (by omega)]
                                    have hred : checkL s (k + 1) pos =
                                        some (.error .IncompleteFrame) := by
                                      simp only [checkL, hgu_s]
                                      rw [if_neg hb₁, if_neg hb58, if_pos hb36]
                                      simp only [hpk_s]
                                      rw [if_neg hb₂]
                                      simp only [hgd_s]
                                      rw [if_neg hvn]
                                      simp only [hsk_s]
                                    right
                                    rw [hred, if_neg hns]
                                · have hgd_s := hB (by omega)
                                  have hred : checkL s (k + 1) pos =
                                      some (.error .IncompleteFrame) := by
                                    simp only [checkL, hgu_s]
                                    rw [if_neg hb₁, if_neg hb58, if_pos hb36]
                                    simp only [hpk_s]
                                    rw [if_neg hb₂]
                                    simp only [hgd_s]
                                  right
                                  rw [hred, if_neg (by omega)]
                      · have hpk_s : peekU8 s pos₁ = .error .IncompleteFrame := by
                          unfold peekU8
                          rw [dif_neg (by omega)]
                        have hred : checkL s (k + 1) pos =
                            some (.error .IncompleteFrame) := by
                          simp only [checkL, hgu_s]
                          rw [if_neg hb₁, if_neg hb58, if_pos hb36]
                          simp only [hpk_s]
                        have hns : ¬ n ≤ s.length := by
                          by_cases hb₂ : b₂ = 45
                          · rw [if_pos hb₂] at hc
                            cases hsk : skipN (s ++ rest) pos₁ 4 with
                            | error e =>
                              simp only [hsk] at hc
                              exact (some_err_ok hc).elim
                            | ok pos₂ =>
                              simp only [hsk] at hc
                              have hn := some_ok_inj hc
                              have hsk' := skipN_ok hsk
                              omega
                          · rw [if_neg hb₂] at hc
                            cases hgd : getDecimalSigned (s ++ rest) pos₁ with
                            | error e =>
                              simp only [hgd] at hc
                              exact (some_err_ok hc).elim
                            | ok vp =>
                              obtain ⟨v, pos₂⟩ := vp
                              simp only [hgd] at hc
                              by_cases hvn : v < 0
                              · rw [if_pos hvn] at hc
                                exact (some_err_ok hc).elim
                              · rw [if_neg hvn] at hc
                                cases hsk : skipN (s ++ rest) pos₂ (v.toNat + 2) with
                                | error e =>
                                  simp only [hsk] at hc
                                  exact (some_err_ok hc).elim
                                | ok pos₃ =>
                                  simp only [hsk] at hc
                                  have hn := some_ok_inj hc
                                  have hsk' := skipN_ok hsk
                                  have hlb₂ := getDecimalSigned_lb hgd
                                  omega
                        right
                        rw [hred, if_neg hns]
                  · rw [if_neg hb36] at hc
                    by_cases hb42 : b = 42
                    · rw [if_pos hb42] at hc
                      cases hgd : getDecimalSigned (s ++ rest) pos₁ with
                      | error e => simp only [hgd] at hc; exact (some_err_ok hc).elim
                      | ok vp =>
                        obtain ⟨v, pos₂⟩ := vp
                        simp only [hgd] at hc
                        have hlb₂ := getDecimalSigned_lb hgd
                        obtain ⟨hA, hB⟩ := getDecimalSigned_pref hgd
                        by_cases hp2s : pos₂ ≤ s.length
                        · have hred : checkL s (k + 1) pos =
                              checkManyL s k v.toNat pos₂ := by
                            simp only [checkL, hgu_s]
                            rw [if_neg hb₁, if_neg hb58, if_neg hb36, if_pos hb42]
                            simp only [hA hp2s]
                          rw [hred]
                          exact (ih k (by omega)).2 s rest v.toNat pos₂ m n hp2s hc
                        · have hlbM := (checkLbAll m).2 (s ++ rest) v.toNat pos₂ n hc
                          have hred : checkL s (k + 1) pos =
                              some (.error .IncompleteFrame) := by
                            simp only [checkL, hgu_s]
                            rw [if_neg hb₁, if_neg hb58, if_neg hb36, if_pos hb42]
                            simp only [hB (by omega)]
                          right
                          rw [hred, if_neg (by omega)]
                    · rw [if_neg hb42] at hc
                      by_cases hb95 : b = 95
                      · rw [if_pos hb95] at hc
                        cases hgl : getLine (s ++ rest) pos₁ with
                        | error e =>
                          simp only [hgl] at hc
                          exact (some_err_ok hc).elim
                        | ok lp =>
                          obtain ⟨line, pos₂⟩ := lp
                          simp only [hgl] at hc
                          by_cases hl : line = []
                          · rw [if_pos hl] at hc
                            have hn := some_ok_inj hc
                            obtain ⟨hA, hB⟩ := getLine_pref hgl
                            by_cases hns : n ≤ s.length
                            · have hred : checkL s (k + 1) pos =
                                  some (.ok pos₂) := by
                                simp only [checkL, hgu_s]
                                rw [if_neg hb₁, if_neg hb58, if_neg hb36,
                                  if_neg hb42, if_pos hb95]
                                simp only [hA (by omega)]
                                rw [if_pos hl]
                              right
                              rw [hred, if_pos hns, hn]
                            · have hred : checkL s (k + 1) pos =
                                  some (.error .IncompleteFrame) := by
                                simp only [checkL, hgu_s]
                                rw [if_neg hb₁, if_neg hb58, if_neg hb36,
                                  if_neg hb42, if_pos hb95]
                                simp only [hB (by omega)]
                              right
                              rw [hred, if_neg hns]
                          · rw [if_neg hl] at hc
                            exact (some_err_ok hc).elim
                      · rw [if_neg hb95] at hc
                        exact (some_err_ok hc).elim
            · have hlb := (checkLbAll (m + 1)).1 (s ++ rest) pos n hc₀
              have hgu_s : getU8 s pos = .error .IncompleteFrame := by
                unfold getU8
                rw [dif_neg hpos]
              have hred : checkL s (k + 1) pos =
                  some (.error .IncompleteFrame) := by
                simp only [checkL, hgu_s]
              right
              rw [hred, if_neg (by omega)]
    · intro s rest cnt pos fc n hps hc
      cases f₂ with
      | zero => exact Or.inl rfl
      | succ k =>
        cases fc with
        | zero => simp [checkManyL] at hc
        | succ m =>
          cases cnt with
          | zero =>
            simp only [checkManyL] at hc
            have hn := some_ok_inj hc
            right
            rw [if_pos (by omega)]
            simp only [checkManyL, Option.some.injEq, Except.ok.injEq]
            omega
          | succ c =>
            simp only [checkManyL] at hc
            cases hcl : checkL (s ++ rest) m pos with
            | none => simp only [hcl] at hc; exact Option.noConfusion hc
            | some r =>
              cases r with
              | error e => simp only [hcl] at hc; exact (some_err_ok hc).elim
              | ok pos₁ =>
                simp only [hcl] at hc
                rcases (ih k (by omega)).1 s rest pos m pos₁ hps hcl with hnone | hval
                · left
                  simp only [checkManyL, hnone]
                · by_cases hp₁s : pos₁ ≤ s.length
                  · rw [if_pos hp₁s] at hval
                    have hred : checkManyL s (k + 1) (c + 1) pos =
                        checkManyL s k c pos₁ := by
                      simp only [checkManyL, hval]
                    rw [hred]
                    exact (ih k (by omega)).2 s rest c pos₁ m n hp₁s hc
                  · rw [if_neg hp₁s] at hval
                    have hlbM := (checkLbAll m).2 (s ++ rest) c pos₁ n hc
                    have hred : checkManyL s (k + 1) (c + 1) pos =
                        some (.error .IncompleteFrame) := by
                      simp only [checkManyL, hval]
                    right
                    rw [hred, if_neg (by omega)]

/-- A strict prefix of bytes that `Frame::check` accepts is reported as
`IncompleteFrame`. -/
theorem check_strict_pref {p rest : List Nat} {n : Nat}
    (hc : FrameL.check (p ++ rest) = .ok n) (hlt : p.length < n) :
    FrameL.check p = .error .IncompleteFrame := by
  unfold FrameL.check at hc ⊢
  have hc₂ : checkL (p ++ rest) (2 * (p ++ rest).length + 4) 0 = some (.ok n) := by
    cases h : checkL (p ++ rest) (2 * (p ++ rest).length + 4) 0 with
    | none =>
      rw [h] at hc
      simp only [Option.getD_none] at hc
      exact Except.noConfusion hc
    | some r =>
      rw [h] at hc
      simp only [Option.getD_some] at hc
      rw [hc]
  rcases (checkPrefAll (2 * p.length + 4)).1 p rest 0 (2 * (p ++ rest).length + 4) n
      (Nat.zero_le _) hc₂ with h | h
  · rw [h]
    rfl
  · rw [if_neg (by omega)] at h
    rw [h]
    rfl

/-- C8: `read_frame`'s end-of-stream and buffering behaviour.  A zero-byte
read returns `None` exactly when the read buffer is empty and the
connection-reset I/O error exactly when it still holds bytes (in particular
the bytes of a truncated frame are retained and reported); and a
well-formed frame's encoding split into two chunks `a`, `b` and fed
sequentially still yields that single frame, the partial bytes `a` being
retained in the buffer between reads rather than lost. -/
theorem claim8_read_frame (a b : List Nat) (f : FrameL)
    (ha : a ≠ []) (hb : b ≠ [])
    (hc : FrameL.check (a ++ b) = .ok ((a ++ b).length))
    (hp : FrameL.parse (a ++ b) = .ok (f, (a ++ b).length)) :
    (∀ buf : List Nat, parseFrameC buf = .ok none →
      readFrame buf [] =
        ⟨if buf = [] then .ok none
          else .error (.Io "connection was closed mid frame"), buf, []⟩) ∧
    readFrame a [] = ⟨.error (.Io "connection was closed mid frame"), a, []⟩ ∧
    readFrame [] [a, b] = ⟨.ok (some f), [], []⟩ := by
  have hblen : 0 < b.length := List.length_pos.mpr hb
  have hlt : a.length < (a ++ b).length := by
    rw [List.length_append]
    omega
  have hchk : FrameL.check a = .error .IncompleteFrame := check_strict_pref hc hlt
  have hpca : parseFrameC a = .ok none := by
    simp only [parseFrameC, hchk]
  have hpcab : parseFrameC (a ++ b) = .ok (some (f, (a ++ b).length)) := by
    simp only [parseFrameC, hc, hp]
  have hgen : ∀ buf : List Nat, parseFrameC buf = .ok none →
      readFrame buf [] =
        ⟨if buf = [] then .ok none
          else .error (.Io "connection was closed mid frame"), buf, []⟩ := by
    intro buf hbuf
    cases buf with
    | nil =>
      rw [if_pos rfl]
      rfl
    | cons x xs =>
      rw [if_neg (List.cons_ne_nil x xs)]
      simp only [readFrame, hbuf]
      rw [if_neg (by simp : ¬ ((x :: xs).isEmpty = true))]
  refine ⟨hgen, (hgen a hpca).trans (by rw [if_neg ha]), ?_⟩
  obtain ⟨x, xs, rfl⟩ : ∃ x xs, a = x :: xs := by
    cases a with
    | nil => exact absurd rfl ha
    | cons x xs => exact ⟨x, xs, rfl⟩
  obtain ⟨y, ys, rfl⟩ : ∃ y ys, b = y :: ys := by
    cases b with
    | nil => exact absurd rfl hb
    | cons y ys => exact ⟨y, ys, rfl⟩
  have h₁ : readFrame [] [x :: xs, y :: ys] = readFrame (x :: xs) [y :: ys] := rfl
  have h₂ : readFrame (x :: xs) [y :: ys] =
      readFrame ((x :: xs) ++ (y :: ys)) [] := by
    simp only [readFrame, hpca]
    rw [if_neg (by simp : ¬ ((y :: ys).isEmpty = true))]
  have h₃ : readFrame ((x :: xs) ++ (y :: ys)) [] = ⟨.ok (some f), [], []⟩ := by
    simp only [readFrame, hpcab]
    rw [List.drop_length]
  rw [h₁, h₂, h₃]

/-- Witness for C8: the simple-string frame `"+OK\r\n"` split as
`"+OK" / "\r\n"` and fed chunk by chunk yields the single frame `OK` with an
empty buffer, and a zero-byte read with the truncated `"+OK"` still buffered
reports the connection-reset error, retaining the bytes. -/
theorem claim8_witness :
    readFrame [] [strB "+OK", strB "\r\n"] =
      ⟨.ok (some (.simpleString (strB "OK"))), [], []⟩ ∧
    readFrame (strB "+OK") [] =
      ⟨.error (.Io "connection was closed mid frame"), strB "+OK", []⟩ ∧
    readFrame [] [] = ⟨.ok none, [], []⟩ :=
  have h := claim8_read_frame (strB "+OK") (strB "\r\n")
    (.simpleString (strB "OK")) (by decide) (by decide) rfl rfl
  ⟨h.2.2, h.2.1, h.1 [] rfl⟩

end Loja
